import Mathlib

/-!
MyShell (`mysh.c`): a verification development

A shallow embedding of the command execution engine of `src/mysh.c`.

Conventions of the embedding

* A C string is the `List Char` of its bytes before the terminating NUL; reading the
  slot one past the end yields the terminator (`cget`).
* The token array `char* tokens[]` is the list of its slots; a slot holding the
  sentinel `NULL` is `none`.
* Everything the code asks of the operating system (directory listing, `stat`,
  `access`, `open`, `fork`, `waitpid`, `read`) is a parameter of the model.
-/

namespace MyShell

/-! ## Constants (mysh.c:13-19) -/

def MAX_COMMAND_LENGTH : Nat := 10000
def MAX_TOKENS : Nat := 1000
def MAX_TOKEN_LENGTH : Nat := 1000
def BUFLENGTH : Nat := 16

/-- A C string: its bytes before the terminating NUL. -/
abbrev CStr := List Char

/-- The expression `s[i]` on a C string: the byte at `i`, and the terminator at `strlen s`. -/
def cget (s : CStr) (i : Nat) : Char := s.getD i '\x00'

/-! ## preprocess_command (mysh.c:180-207) -/

/-- The operator test of line 183: `command[i] == '>' || command[i] == '<' || command[i] == '|'`. -/
def isOp (c : Char) : Bool := c == '>' || c == '<' || c == '|'

/-- Lines 186-191 and 196-201: `j = strlen(command); while (j >= k) { command[j+1] = command[j]; j--; }`
followed by `command[k] = ' '`. The tail `command[k..strlen]`, terminator included, moves one
slot to the right and a space is stored in slot `k`. -/
def shiftInsert (command : CStr) (k : Nat) : CStr :=
  command.take k ++ ' ' :: command.drop k

/-- One iteration of the loop body of lines 183-205 at index `i`; returns the buffer and the
index after the closing `i++`. -/
def preprocess_step (command : CStr) (i : Nat) : CStr × Nat :=
  if isOp (cget command i) then
    let s1 : CStr × Nat :=
      if 0 < i ∧ cget command (i - 1) ≠ ' ' then (shiftInsert command i, i + 1) else (command, i)
    let s2 : CStr × Nat :=
      if cget s1.1 (s1.2 + 1) ≠ ' ' then (shiftInsert s1.1 (s1.2 + 1), s1.2 + 1) else s1
    (s2.1, s2.2 + 1)
  else
    (command, i + 1)

/-- The loop `while (command[i] != '\0')` of line 182. Every iteration lowers
`strlen(command) - i` by one, so `fuel = strlen(command)` iterations reach the terminator
(`preprocess_loop_fuel`). -/
def preprocess_loop : Nat → CStr → Nat → CStr
  | 0, command, _ => command
  | fuel + 1, command, i =>
    if cget command i ≠ '\x00' then
      let s := preprocess_step command i
      preprocess_loop fuel s.1 s.2
    else command

/-- The function `preprocess_command`: the content of the buffer when the function returns. The buffer
is taken to be large enough for the normalized text. -/
def preprocess_command (command : CStr) : CStr :=
  preprocess_loop command.length command 0



/-! ## The operating system, as far as `check_wildcard` asks -/

/-- The directory-listing capabilities used by `check_wildcard`. -/
structure FileSys where
  /-- The names that successive `readdir` calls return for `opendir(path)`, in order, or `none`
  when the directory cannot be opened. -/
  opendir : CStr → Option (List CStr)
  /-- The test `stat(fullpath, &sbuf) == 0 && S_ISREG(sbuf.st_mode)`. -/
  isRegular : CStr → Bool
  /-- The byte found `k` slots before the first byte of an entry name (line 391 reads there when
  the name is shorter than the text after the wildcard). -/
  before : CStr → Nat → Char

/-! ## strtok (C library) -/

/-- Membership in the delimiter string `" \t\n"` of lines 217 and 228. -/
def isDelim (c : Char) : Bool := c == ' ' || c == '\t' || c == '\n'

/-- One call of `strtok` on the text `s` still to scan, `delim` being membership in the
delimiter string: skip the leading delimiters; at the terminator return `NULL` (`none`);
otherwise the token runs up to the next delimiter or the terminator, and scanning resumes one
byte after that delimiter. -/
def strtok_by (delim : Char → Bool) (s : CStr) : Option (CStr × CStr) :=
  match s.dropWhile delim with
  | [] => none
  | c :: cs =>
    some ((c :: cs).takeWhile (fun x => !delim x), ((c :: cs).dropWhile (fun x => !delim x)).drop 1)

/-- The calls `strtok(command, " \t\n")` and `strtok(NULL, " \t\n")` of `parse_command`. -/
def strtok (s : CStr) : Option (CStr × CStr) := strtok_by isDelim s

/-! ## check_wildcard (mysh.c:321-412) -/

/-- Lines 331-335: the loop that records the slot after the last `/` that is not the last
byte of the token. Returns `(finalPathStart, pathFound)`. -/
def find_path (token : CStr) : Nat × Bool :=
  (List.range token.length).foldl
    (fun (st : Nat × Bool) (i : Nat) =>
      if cget token i = '/' ∧ i + 1 < token.length then (i + 1, true) else st)
    (0, false)

/-- Lines 346-353: the scan for the first `*`. Returns `(wildcardLocation, wildcardFound)`. -/
def find_wildcard : CStr → Nat × Bool
  | [] => (0, false)
  | c :: cs => if c = '*' then (0, true) else ((find_wildcard cs).1 + 1, (find_wildcard cs).2)

/-- The expression `currname[k]` for a signed index: inside the name and at its terminator it is the
byte of the name, before the name it is whatever the directory entry holds there. -/
def dname_at (fs : FileSys) (currname : CStr) (k : Int) : Char :=
  if 0 ≤ k then cget currname k.toNat else fs.before currname (-k).toNat

/-- Lines 382-392: the two comparison loops on one entry name. Each loop stops at its first
mismatch. -/
def match_check (fs : FileSys) (firsthalf secondhalf currname : CStr) : Bool :=
  (List.range firsthalf.length).all (fun i => cget currname i == cget firsthalf i) &&
  (List.range secondhalf.length).all
    (fun i => dname_at fs currname ((currname.length : Int) - (secondhalf.length : Int) + (i : Int))
      == cget secondhalf i)

/-- The names that `check_wildcard` stores into the token array for `token`, in the order of
the directory listing (lines 322-404). -/
def wildcard_matches (fs : FileSys) (token : CStr) : List CStr :=
  let finalPathStart := (find_path token).1
  let pathFound := (find_path token).2
  let startingpath : CStr := if pathFound then token.take (finalPathStart - 1) else token
  let temptoken : CStr := token.drop finalPathStart
  let wildcardLocation := (find_wildcard temptoken).1
  let wildcardFound := (find_wildcard temptoken).2
  if wildcardFound then
    let firsthalf := temptoken.take wildcardLocation
    let secondhalf := temptoken.drop (wildcardLocation + 1)
    let d := if pathFound ∧ 0 < startingpath.length then fs.opendir startingpath
             else fs.opendir ['.']
    match d with
    | none => []
    | some entries =>
      entries.filterMap (fun currname =>
        let fullpath : CStr := if pathFound then startingpath ++ '/' :: currname else currname
        if fs.isRegular fullpath ∧ cget currname 0 ≠ '.' ∧
            match_check fs firsthalf secondhalf currname = true then
          some fullpath
        else none)
  else []

/-- The function `check_wildcard(token, tokens, tokencount)`, where `tokencount` is the number of slots
of `tokens` already filled: each match is stored by `tokens[tokencount++] = fullpath` (line
396, with no test of `tokencount` against the size of the array). Returns the token array and
`matchCount`. -/
def check_wildcard (fs : FileSys) (token : CStr) (tokens : List CStr) : List CStr × Nat :=
  (tokens ++ wildcard_matches fs token, (wildcard_matches fs token).length)

/-! ## parse_command (mysh.c:210-231) -/

/-- The body of the loop of lines 218-229 for one token: the token array afterwards. -/
def parse_token (fs : FileSys) (tokens : List CStr) (token : CStr) : List CStr :=
  let r := check_wildcard fs token tokens
  if 0 < r.2 then r.1 else tokens ++ [token]

/-- The loop `while (token != NULL && token_count < MAX_TOKENS - 1)` of line 218. `tok` is the
result of the latest `strtok` call (the token and the text still to scan), `tokens` the filled
slots of the token array, so `token_count = tokens.length`. Every iteration fills at least one
slot, hence `MAX_TOKENS` iterations are never all used (`parse_loop_fuel`). -/
def parse_loop (fs : FileSys) : Nat → Option (CStr × CStr) → List CStr → List CStr
  | 0, _, tokens => tokens
  | fuel + 1, tok, tokens =>
    match tok with
    | none => tokens
    | some (token, rest) =>
      if tokens.length < MAX_TOKENS - 1 then
        parse_loop fs fuel (strtok rest) (parse_token fs tokens token)
      else tokens

/-- The function `parse_command`: the filled slots of `tokens` on return; the slot after them holds the
sentinel `NULL` (line 230). -/
def parse_command (fs : FileSys) (command : CStr) : List CStr :=
  parse_loop fs MAX_TOKENS (strtok (preprocess_command command)) []


/-! ## The token array as the dispatcher sees it -/

/-- The array `char* tokens[]`: one entry per slot, `none` for a slot holding `NULL`. -/
abbrev TokenArray := List (Option CStr)

/-- The array that `parse_command` hands over: its tokens followed by the sentinel. -/
def to_array (tokens : List CStr) : TokenArray := tokens.map some ++ [none]

/-- The expression `tokens[i]`. A slot after those modelled reads as `NULL`. -/
def slot (tokens : TokenArray) (i : Nat) : Option CStr := (tokens.get? i).join

/-- The argument vector that `execv(path, tokens)` passes on: the slots before the first `NULL`. -/
def argv (tokens : TokenArray) : List CStr :=
  (tokens.takeWhile Option.isSome).filterMap id

/-! ## The operating system, as far as redirection and dispatch ask -/

/-- How a child ended, as `waitpid` reports it. -/
inductive WaitStatus where
  /-- Normal termination (`WIFEXITED`), with the value passed to `exit`. -/
  | exited (code : Nat)
  /-- Any other termination. -/
  | signaled
  deriving DecidableEq, Repr

/-- What a slot of memory after the last entry of the array `dir_paths` (line 264) holds when the
loop of line 266 reads it as `dir_paths[i]`. -/
inductive StraySlot where
  /-- The slot holds `NULL`. -/
  | null
  /-- The slot holds a pointer to the C string `s`. -/
  | text (s : CStr)
  /-- The slot holds a value that is no readable pointer. -/
  | wild
  deriving DecidableEq, Repr

/-- The capabilities that `check_redirection`, `execute_builtin_command` and `execute_command` call,
and the memory that `execute_command` reads outside its own objects. -/
structure ProcEnv where
  /-- The test `open(path, O_RDONLY) >= 0`. -/
  open_in : CStr → Bool
  /-- The test `open(path, O_WRONLY | O_CREAT | O_TRUNC, 0640) >= 0`. -/
  open_out : CStr → Bool
  /-- The test `access(path, X_OK) == 0`. -/
  access : CStr → Bool
  /-- True when `fork()` creates a child. -/
  fork_ok : Bool
  /-- The call `execv(path, argv)`: `none` when it returns (failure), otherwise how the program that
  replaced the child ends. -/
  execv : CStr → List CStr → Option WaitStatus
  /-- The test `chdir(dir) == 0`. -/
  chdir : CStr → Bool
  /-- The result of `getcwd`. -/
  getcwd : Option CStr
  /-- The result of `getenv("PATH")`. -/
  path_env : Option CStr
  /-- The memory after the three entries of the array `dir_paths`, slot by slot, as far as it can
  be read: the array has no `NULL` entry, so the loop of line 266 goes on into it when none of
  the three directories holds the command. -/
  dir_paths_after : List StraySlot

/-! ## check_redirection (mysh.c:488-526) -/

/-- The four locals of lines 489-490. `input_index` and `output_index` start at `-1`. -/
structure RedirScan where
  input_index : Int
  output_index : Int
  input_file : Option CStr
  output_file : Option CStr
  deriving DecidableEq, Repr

/-- The loop of lines 493-501 from index `i` on, the first argument being the slots `tokens[i..]`.
It stops at the first `NULL` slot (or where the modelled slots end); `tokens[i + 1]` is the
head of the slots after the current one. -/
def scan_redirection : TokenArray → Nat → RedirScan → RedirScan
  | [], _, st => st
  | none :: _, _, st => st
  | some t :: rest, i, st =>
    if t = ['<'] then
      scan_redirection rest (i + 1) { st with input_file := slot rest 0, input_index := i }
    else if t = ['>'] then
      scan_redirection rest (i + 1) { st with output_file := slot rest 0, output_index := i }
    else scan_redirection rest (i + 1) st

/-- What `check_redirection` leaves behind when it returns: the token array, and the files now
bound to standard input and standard output (`none`: binding unchanged). -/
structure Redirected where
  tokens : TokenArray
  stdin : Option CStr
  stdout : Option CStr
  deriving DecidableEq, Repr

/-- The statement `tokens[k] = tokens[k + 1] = NULL` of lines 512 and 524. -/
def clear_pair (tokens : TokenArray) (k : Int) : TokenArray :=
  (tokens.set (k + 1).toNat none).set k.toNat none

/-- The function `check_redirection`. `none`: an `open` failed and the calling process ended by
`exit(EXIT_FAILURE)` (lines 506-509, 518-521). -/
def check_redirection (env : ProcEnv) (tokens : TokenArray) : Option Redirected :=
  let st := scan_redirection tokens 0 ⟨-1, -1, none, none⟩
  let step1 : Option Redirected :=
    match st.input_file with
    | none => some ⟨tokens, none, none⟩
    | some f =>
      if env.open_in f then some ⟨clear_pair tokens st.input_index, some f, none⟩ else none
  match step1 with
  | none => none
  | some r =>
    match st.output_file with
    | none => some r
    | some f =>
      if env.open_out f then some ⟨clear_pair r.tokens st.output_index, r.stdin, some f⟩
      else none

/-! ## execute_builtin_command (mysh.c:423-485) and execute_command (mysh.c:243-317) -/

/-- What the calling process does that a later command could observe. -/
inductive Event where
  /-- Lines 245-246: `original_stdout = dup(1)`, `original_stdin = dup(0)`. -/
  | save_std
  /-- Lines 313-316: both `dup2` calls and both `close` calls. -/
  | restore_std
  /-- The calls `dup2(fd, STDIN_FILENO); close(fd)` on the file opened for `<`. -/
  | redirect_stdin (file : CStr)
  /-- The calls `dup2(fd, STDOUT_FILENO); close(fd)` on the file opened for `>`. -/
  | redirect_stdout (file : CStr)
  /-- A built-in ran in the calling process. -/
  | builtin (name : CStr)
  /-- A child was created by `fork` for the program at `path`, and waited for. -/
  | spawn (path : CStr) (tokens : TokenArray)
  /-- The call `fork()` failed (lines 287, 307). -/
  | fork_failed
  /-- Line 293: `printf("Command not found: %s\n", tokens[0])`. -/
  | not_found (name : CStr)
  deriving DecidableEq, Repr

/-- How control leaves `execute_command`. -/
inductive Ending where
  /-- The function returned to its caller. -/
  | returned
  /-- The calling process ended through `exit(code)`. -/
  | process_exit (code : Nat)
  /-- The function `strcmp`, `strlen` or `strcpy` was handed a `NULL` pointer. -/
  | null_deref
  /-- The loop of line 266 read memory after the array `dir_paths` that cannot be read, or handed
  `strcpy` what it found there and that is no readable pointer. -/
  | stray_read
  deriving DecidableEq, Repr

/-- The result of `execute_command`: the global `currstatus` afterwards, what the calling process
did, and how control left the function. -/
structure Outcome where
  currstatus : Int
  events : List Event
  ending : Ending
  deriving DecidableEq, Repr

def EXIT_FAILURE : Nat := 1
def EXIT_SUCCESS : Nat := 0

/-- The macro `DIR_PATHS` (line 19). -/
def DIR_PATHS : List CStr := ["/usr/local/bin".toList, "/usr/bin".toList, "/bin".toList]

/-- The test of lines 260 (on `tokens[0]`) and 451-452 (on `tokens[1]`): one of the four built-in names. -/
def is_builtin (name : CStr) : Bool :=
  name == "cd".toList || name == "pwd".toList || name == "which".toList || name == "exit".toList

/-- The function `check_slash`: 1 when the name holds a `/`, else 0. -/
def check_slash (command : CStr) : Nat := if '/' ∈ command then 1 else 0

/-- The loop of lines 461-473 of `which`, over the text of `PATH` still to split at `:`.
Returns true when some directory holds an executable `name`. -/
def which_search (env : ProcEnv) (name : CStr) : Nat → Option (CStr × CStr) → Bool
  | 0, _ => false
  | _, none => false
  | fuel + 1, some (path, rest) =>
    if env.access (path ++ '/' :: name) then true
    else which_search env name fuel (strtok_by (fun c => c == ':') rest)

/-- The function `execute_builtin_command`, for `tokens[0]` one of the built-in names: `currstatus` afterwards
and how control leaves. -/
def execute_builtin_command (env : ProcEnv) (currstatus : Int) (tokens : TokenArray) : Int × Ending :=
  match slot tokens 0 with
  | none => (currstatus, Ending.null_deref)
  | some name =>
    if name = "cd".toList then
      match slot tokens 1 with
      | some dir => if env.chdir dir then (1, Ending.returned) else (0, Ending.returned)
      | none => (0, Ending.returned)
    else if name = "pwd".toList then
      match env.getcwd with
      | some _ => (1, Ending.returned)
      | none => (0, Ending.returned)
    else if name = "which".toList then
      match slot tokens 1 with
      | none => (0, Ending.returned)
      | some arg =>
        if (slot tokens 2).isSome ∨ is_builtin arg = true then (0, Ending.returned)
        else
          match env.path_env with
          | none => (currstatus, Ending.null_deref)
          | some p =>
            if which_search env arg (p.length + 1) (strtok_by (fun c => c == ':') p) then
              (1, Ending.returned)
            else (0, Ending.returned)
    else if name = "exit".toList then (currstatus, Ending.process_exit EXIT_SUCCESS)
    else (currstatus, Ending.returned)

/-- The child created at lines 275 and 295, from `fork` to its end: `check_redirection`, then
`execv`, then `exit(EXIT_FAILURE)` if `execv` returns. The result is what `waitpid` reports. -/
def child_process (env : ProcEnv) (path : CStr) (tokens : TokenArray) : WaitStatus :=
  match check_redirection env tokens with
  | none => WaitStatus.exited EXIT_FAILURE
  | some r =>
    match env.execv path (argv r.tokens) with
    | none => WaitStatus.exited EXIT_FAILURE
    | some w => w

/-- The expression `WIFEXITED(status) ? WEXITSTATUS(status) : 0` of lines 285 and 305; `WEXITSTATUS` is
the low eight bits of the value passed to `exit`. -/
def status_of (w : WaitStatus) : Int :=
  match w with
  | WaitStatus.exited code => ((code % 256 : Nat) : Int)
  | WaitStatus.signaled => 0

/-- Lines 275-289 and 295-309 in the calling process: `fork`, then `waitpid` and the assignment
to `currstatus`, or the report of a failed `fork`. -/
def fork_and_wait (env : ProcEnv) (path : CStr) (tokens : TokenArray) : Int × List Event :=
  if env.fork_ok then (status_of (child_process env path tokens), [Event.spawn path tokens])
  else (0, [Event.fork_failed])

/-- How the loop of lines 266-291 ends. -/
inductive Search where
  /-- A directory held the command (`found = 1`): `currstatus` afterwards and what lines 275-289
  did. -/
  | ran (currstatus : Int) (events : List Event)
  /-- The loop read `NULL` with `found == 0`. -/
  | exhausted
  /-- The loop read, after the array, memory that cannot be read or is no readable pointer. -/
  | fault
  deriving DecidableEq, Repr

/-- The loop of lines 266-291 once `i` has passed the three entries of `dir_paths`, with
`found == 0`: `dir_paths[i]` is then read from the memory after the array. A `NULL` there ends
the loop; a pointer to a string is used as one more directory; anything else, and the end of the
readable memory, is a fault. -/
def search_stray (env : ProcEnv) (name : CStr) (tokens : TokenArray) : List StraySlot → Search
  | [] => Search.fault
  | StraySlot.null :: _ => Search.exhausted
  | StraySlot.wild :: _ => Search.fault
  | StraySlot.text dir :: slots =>
    if env.access (dir ++ '/' :: name) then
      Search.ran (fork_and_wait env (dir ++ '/' :: name) tokens).1
        (fork_and_wait env (dir ++ '/' :: name) tokens).2
    else search_stray env name tokens slots

/-- The loop of lines 266-291 over the entries of `dir_paths` still to try, with `found == 0`.
The array has the three entries of `DIR_PATHS` and no `NULL` after them, so after the third entry
the loop reads on (`search_stray`). -/
def search_dirs (env : ProcEnv) (name : CStr) (tokens : TokenArray) : List CStr → Search
  | [] => search_stray env name tokens env.dir_paths_after
  | dir :: dirs =>
    if env.access (dir ++ '/' :: name) then
      Search.ran (fork_and_wait env (dir ++ '/' :: name) tokens).1
        (fork_and_wait env (dir ++ '/' :: name) tokens).2
    else search_dirs env name tokens dirs

/-- Lines 259-316: the dispatch of a command whose conditional prefix has been dealt with, and the
restoring of the standard streams. `events` holds what was done before. -/
def dispatch (env : ProcEnv) (currstatus : Int) (events : List Event) (tokens : TokenArray) :
    Outcome :=
  match slot tokens 0 with
  | none => ⟨currstatus, events, Ending.null_deref⟩
  | some name =>
    if is_builtin name then
      match check_redirection env tokens with
      | none => ⟨currstatus, events, Ending.process_exit EXIT_FAILURE⟩
      | some r =>
        let ev := events ++ (r.stdin.toList.map Event.redirect_stdin) ++
          (r.stdout.toList.map Event.redirect_stdout) ++ [Event.builtin name]
        match execute_builtin_command env currstatus r.tokens with
        | (st, Ending.returned) => ⟨st, ev ++ [Event.restore_std], Ending.returned⟩
        | (st, e) => ⟨st, ev, e⟩
    else if check_slash name = 0 then
      match search_dirs env name tokens DIR_PATHS with
      | Search.ran st ev => ⟨st, events ++ ev ++ [Event.restore_std], Ending.returned⟩
      | Search.exhausted =>
        ⟨currstatus, events ++ [Event.not_found name, Event.restore_std], Ending.returned⟩
      | Search.fault => ⟨currstatus, events, Ending.stray_read⟩
    else
      let r := fork_and_wait env name tokens
      ⟨r.1, events ++ r.2 ++ [Event.restore_std], Ending.returned⟩

/-- Lines 254-257: the test for `else`, then the dispatch. -/
def gate_else (env : ProcEnv) (currstatus : Int) (events : List Event) (tokens : TokenArray) :
    Outcome :=
  match slot tokens 0 with
  | none => ⟨currstatus, events, Ending.null_deref⟩
  | some t =>
    if t = "else".toList then
      if currstatus ≠ 0 then ⟨currstatus, events, Ending.returned⟩
      else dispatch env currstatus events (tokens.drop 1)
    else dispatch env currstatus events tokens

/-- The function `execute_command`, run with the global `currstatus` at the given value. -/
def execute_command (env : ProcEnv) (currstatus : Int) (tokens : TokenArray) : Outcome :=
  match slot tokens 0 with
  | none => ⟨currstatus, [Event.save_std], Ending.null_deref⟩
  | some t =>
    if t = "then".toList then
      if currstatus ≠ 1 then ⟨currstatus, [Event.save_std], Ending.returned⟩
      else gate_else env currstatus [Event.save_std] (tokens.drop 1)
    else gate_else env currstatus [Event.save_std] tokens

/-- True when the command got past the conditional prefix: something happened after the saving of the
standard streams, or control left otherwise than by the early `return` of lines 250 and 255. -/
def executed (o : Outcome) : Bool :=
  o.events != [Event.save_std] || o.ending != Ending.returned

/-! ## read_command (mysh.c:25-30, 129-178) -/

/-- The struct `lines_t`. -/
structure lines_t where
  fd : Int
  pos : Nat
  len : Nat
  buf : List Char
  deriving DecidableEq, Repr

/-- The input still to come on a descriptor: the chunks that successive `read` calls will
deliver, each of 1 to `BUFLENGTH` bytes; after the last one `read` returns 0. A failing `read`
(-1) is not told apart from end of input: the code treats both alike (`L->len < 1`). -/
abbrev Source := List (List Char)

/-- The function `fdinit`: it sets `fd`, `pos` and `len` of the struct and leaves the buffer as
it finds it. -/
def fdinit (L : lines_t) (fd : Int) : lines_t := { L with fd := fd, pos := 0, len := 0 }

/-- The text that a `char*` built from the bytes `bytes` and a terminator denotes. -/
def c_str (bytes : List Char) : CStr := bytes.takeWhile (fun c => c != '\x00')

/-- The bytes `L->buf[from .. to)` copied by `memcpy` at lines 148 and 169. -/
def segment (L : lines_t) (start stop : Nat) : List Char := (L.buf.drop start).take (stop - start)

/-- The loop of lines 164-175 from `pos` on: the index of the first newline in `buf[pos..len)`,
if any. `fuel` counts the iterations left; `len - pos` are enough. -/
def scan_newline (buf : List Char) (len : Nat) : Nat → Nat → Option Nat
  | 0, _ => none
  | fuel + 1, pos =>
    if pos < len then
      if buf.getD pos '\x00' = '\n' then some pos else scan_newline buf len fuel (pos + 1)
    else none

/-- The bytes of `line` (`NULL` counts as no bytes) followed by a segment: `realloc`, `memcpy`
and the terminator of lines 147-150 and 168-170. -/
def append_segment (line : Option (List Char)) (seg : List Char) : Option (List Char) :=
  some (line.getD [] ++ seg)

/-- The state of the loop of lines 141-176: the struct, the input left, the buffer `line` being
built (`none` for `NULL`) and the local `segment_start`. -/
structure ReadState where
  L : lines_t
  src : Source
  line : Option (List Char)
  segment_start : Nat

/-- Lines 143-162: when the buffer is used up, append the pending segment to `line` and `read`
the next chunk. `Sum.inl`: the `read` returned less than 1, the descriptor is closed and `line`
is returned. `Sum.inr`: the state with which the scan of lines 164-175 starts. -/
def refill (s : ReadState) : (Option (List Char) × lines_t × Source) ⊕ ReadState :=
  if s.L.pos = s.L.len then
    let line1 :=
      if s.segment_start < s.L.pos then
        append_segment s.line (segment s.L s.segment_start s.L.pos)
      else s.line
    match s.src with
    | [] => Sum.inl (line1, { s.L with len := 0, fd := -1 }, [])
    | chunk :: rest =>
      if chunk.length < 1 then Sum.inl (line1, { s.L with len := 0, fd := -1 }, rest)
      else
        Sum.inr ⟨{ s.L with len := chunk.length, buf := chunk ++ s.L.buf.drop chunk.length,
                            pos := 0 }, rest, line1, 0⟩
  else Sum.inr s

/-- The loop `while (1)` of lines 141-176. Returns the pointer returned, the struct and the
input left. After the first iteration every iteration consumes a chunk or returns, so the number
of chunks plus two bounds the iterations (`read_loop_spec`). -/
def read_loop : Nat → ReadState → Option (List Char) × lines_t × Source
  | 0, s => (s.line, s.L, s.src)
  | fuel + 1, s =>
    match refill s with
    | Sum.inl r => r
    | Sum.inr s1 =>
      match scan_newline s1.L.buf s1.L.len (s1.L.len - s1.L.pos) s1.L.pos with
      | some p =>
        (append_segment s1.line (segment s1.L s1.segment_start p), { s1.L with pos := p + 1 },
          s1.src)
      | none => read_loop fuel { s1 with L := { s1.L with pos := s1.L.len } }

/-- The function `read_command`: the line returned as a C string (`none` for `NULL`), the struct and the
input left. -/
def read_command (L : lines_t) (src : Source) : Option CStr × lines_t × Source :=
  if L.fd < 0 then (none, L, src)
  else
    let r := read_loop (src.length + 2) ⟨L, src, none, L.pos⟩
    (r.1.map c_str, r.2.1, r.2.2)

/-- The results of `n` successive calls of `read_command`. -/
def read_commands : Nat → lines_t → Source → List (Option CStr)
  | 0, _, _ => []
  | n + 1, L, src =>
    (read_command L src).1 :: read_commands n (read_command L src).2.1 (read_command L src).2.2

/-! ## check_pipe (mysh.c:530-541) and execute_full (mysh.c:544-604) -/

/-- The function `check_pipe`: 1 when a slot before the first `NULL` holds `|`, else 0. -/
def check_pipe : TokenArray → Nat
  | [] => 0
  | none :: _ => 0
  | some t :: rest => if t = ['|'] then 1 else check_pipe rest

/-- The loop of lines 554-560: `pipe_index` when it ends, the index of the first slot that holds
`|` (or of the first `NULL` slot when there is none). -/
def find_pipe_index : TokenArray → Nat
  | [] => 0
  | none :: _ => 0
  | some t :: rest => if t = ['|'] then 0 else find_pipe_index rest + 1

/-- What `execute_full` asks of the operating system for itself: whether `pipe(p)` and its two
`fork()` calls succeed. -/
structure PipeEnv where
  pipe_ok : Bool
  fork1_ok : Bool
  fork2_ok : Bool

/-- One child of `execute_full`: the token array it hands to `execute_command` and what
`execute_command` does there; the child then ends by `exit(0)` if `execute_command` returns. -/
structure Stage where
  tokens : TokenArray
  outcome : Outcome
  deriving DecidableEq, Repr

/-- What `execute_full` does. -/
inductive FullOutcome where
  /-- No `|` (line 551): `execute_command(tokens)` runs in the calling process; when it returns,
  lines 601-604 restore the standard streams. -/
  | direct (o : Outcome)
  /-- A `|` was found and `pipe` and both `fork` calls succeeded: child 1 (lines 573-578) and
  child 2 (lines 586-590); the calling process closes both ends, waits twice and restores the
  standard streams (lines 593-604). -/
  | pipeline (child1 child2 : Stage)
  /-- The call `pipe` or a `fork` failed: the calling process ends by `exit(1)` (lines 565, 571,
  584); `child1` is the child already created, if any. -/
  | aborted (child1 : Option Stage)
  deriving DecidableEq, Repr

/-- The function `execute_full`, run with the global `currstatus` at the given value. Each child
starts with the memory of the calling process at its `fork`: child 1 stores `NULL` over the
`|` in its own copy of the array (line 576), child 2 starts `pipe_index + 1` slots into the
array (line 589). -/
def execute_full (env : ProcEnv) (penv : PipeEnv) (currstatus : Int) (tokens : TokenArray) :
    FullOutcome :=
  if check_pipe tokens = 0 then FullOutcome.direct (execute_command env currstatus tokens)
  else
    let pipe_index := find_pipe_index tokens
    if penv.pipe_ok = false then FullOutcome.aborted none
    else if penv.fork1_ok = false then FullOutcome.aborted none
    else
      let child1 : Stage :=
        ⟨tokens.set pipe_index none, execute_command env currstatus (tokens.set pipe_index none)⟩
      if penv.fork2_ok = false then FullOutcome.aborted (some child1)
      else
        FullOutcome.pipeline child1
          ⟨tokens.drop (pipe_index + 1),
            execute_command env currstatus (tokens.drop (pipe_index + 1))⟩

/-! ## Descriptors of the calling process (dup, dup2, open, close) -/

/-- The descriptor table of a process: its open descriptors in ascending order, each with the
name of the open file it is bound to. -/
abbrev FdTable := List (Nat × CStr)

/-- The open file a descriptor is bound to; `none` when the descriptor is not open. -/
def fd_lookup : FdTable → Nat → Option CStr
  | [], _ => none
  | (k, v) :: rest, fd => if k = fd then some v else fd_lookup rest fd

/-- Bind descriptor `fd` to `file`, replacing what it was bound to. -/
def fd_bind : FdTable → Nat → CStr → FdTable
  | [], fd, file => [(fd, file)]
  | (k, v) :: rest, fd, file =>
    if fd < k then (fd, file) :: (k, v) :: rest
    else if fd = k then (fd, file) :: rest
    else (k, v) :: fd_bind rest fd file

/-- Remove descriptor `fd` from the table. -/
def fd_unbind (t : FdTable) (fd : Nat) : FdTable := t.filter (fun p => p.1 != fd)

/-- The largest open descriptor (0 for an empty table). -/
def max_fd (t : FdTable) : Nat := t.foldr (fun p m => max p.1 m) 0

/-- The lowest-numbered descriptor that is not open: what `open` and `dup` return. -/
def lowest_free (t : FdTable) : Nat :=
  ((List.range (max_fd t + 2)).find? (fun n => (fd_lookup t n).isNone)).getD (max_fd t + 1)

/-- The call `dup(fd)`: the table afterwards and the value returned (-1 when `fd` is not open). -/
def sys_dup (t : FdTable) (fd : Nat) : FdTable × Int :=
  match fd_lookup t fd with
  | none => (t, -1)
  | some file => (fd_bind t (lowest_free t) file, (lowest_free t : Int))

/-- The call `dup2(oldfd, newfd)`; nothing changes when `oldfd` is not an open descriptor. -/
def sys_dup2 (t : FdTable) (oldfd : Int) (newfd : Nat) : FdTable :=
  if oldfd < 0 then t
  else
    match fd_lookup t oldfd.toNat with
    | none => t
    | some file => fd_bind t newfd file

/-- The call `close(fd)`. -/
def sys_close (t : FdTable) (fd : Int) : FdTable :=
  if fd < 0 then t else fd_unbind t fd.toNat

/-- The calls `fd = open(file, ...); dup2(fd, target); close(fd)` of lines 505-511 and 517-523,
the `open` having succeeded. -/
def sys_redirect (t : FdTable) (file : CStr) (target : Nat) : FdTable :=
  sys_close (sys_dup2 (fd_bind t (lowest_free t) file) (lowest_free t : Int) target)
    (lowest_free t : Int)

/-- The descriptor table of the calling process inside `execute_command`, with the two locals
`original_stdout` and `original_stdin`. -/
structure FdState where
  table : FdTable
  original_stdout : Int
  original_stdin : Int
  deriving DecidableEq, Repr

/-- The effect of one event of `execute_command` on the descriptors of the calling process. A child
works on its own copy of the table, and the built-ins open no file. -/
def fd_event (s : FdState) : Event → FdState
  | Event.save_std =>
    let r1 := sys_dup s.table 1
    let r2 := sys_dup r1.1 0
    ⟨r2.1, r1.2, r2.2⟩
  | Event.restore_std =>
    let t1 := sys_dup2 s.table s.original_stdout 1
    let t2 := sys_dup2 t1 s.original_stdin 0
    let t3 := sys_close t2 s.original_stdout
    ⟨sys_close t3 s.original_stdin, s.original_stdout, s.original_stdin⟩
  | Event.redirect_stdin file => ⟨sys_redirect s.table file 0, s.original_stdout, s.original_stdin⟩
  | Event.redirect_stdout file => ⟨sys_redirect s.table file 1, s.original_stdout, s.original_stdin⟩
  | _ => s

/-- The descriptor table of the calling process after `execute_command` has done what `o` records,
having started with the table `t`. -/
def fds_after (t : FdTable) (o : Outcome) : FdTable :=
  (o.events.foldl fd_event ⟨t, -1, -1⟩).table

/-- The invariant of the descriptor table between the saving and the restoring of the standard
streams, for a call that started with the table `t`: the two duplicates are open, are the
descriptors `a` and `b` held by the two locals and are bound to what 1 and 0 were bound to in
`t`; 0 and 1 are open; every other descriptor is as in `t`. -/
def FdInv (t : FdTable) (a b : Nat) (s : FdState) : Prop :=
  s.original_stdout = (a : Int) ∧ s.original_stdin = (b : Int) ∧
    fd_lookup s.table a = fd_lookup t 1 ∧ fd_lookup s.table b = fd_lookup t 0 ∧
    (fd_lookup s.table 0).isSome = true ∧ (fd_lookup s.table 1).isSome = true ∧
    ∀ m, m ≠ 0 → m ≠ 1 → m ≠ a → m ≠ b → fd_lookup s.table m = fd_lookup t m

/-- An event other than the saving and the restoring of the standard streams. -/
def Event.inner (e : Event) : Prop := e ≠ Event.save_std ∧ e ≠ Event.restore_std

/-! ## Auxiliary definitions for the tokenizer -/

/-- True when the buffer has no byte before the index (`i = 0`) or the byte before it is a
space: the negation of the test `i > 0 && command[i - 1] != ' '` of line 185, for the index
`i = strlen done`. -/
def endsSp (done : CStr) : Bool :=
  match done.getLast? with
  | none => true
  | some c => c == ' '

/-- A closed form of `preprocess_command`, by recursion on the text still to scan. `prevSp`
tells whether the scanned part is empty or ends in a space. -/
def normalize : Bool → CStr → CStr
  | _, [] => []
  | prevSp, c :: rest =>
    if isOp c then
      (if prevSp then [] else [' ']) ++
        c :: (if rest.head? = some ' ' then normalize false rest else ' ' :: normalize true rest)
    else c :: normalize (c == ' ') rest

/-- A line on which `preprocess_command` has nothing to do: every operator character is at the start
or after a space, and is followed by a space. -/
def Normal : Bool → CStr → Bool
  | _, [] => true
  | prevSp, c :: rest =>
    if isOp c then prevSp && (rest.head? == some ' ') && Normal false rest
    else Normal (c == ' ') rest

/-- A token: one operator character alone, or a non-empty word free of operator characters and
of delimiters. -/
def GoodTok (t : CStr) : Prop :=
  t = ['|'] ∨ t = ['<'] ∨ t = ['>'] ∨
    (t ≠ [] ∧ ∀ c ∈ t, c ≠ '|' ∧ c ≠ '<' ∧ c ≠ '>' ∧ c ≠ ' ' ∧ c ≠ '\t' ∧ c ≠ '\n')


/-- The tokens that successive `strtok` calls return on `s`, in order, until `NULL`. Each call
leaves less text to scan, so `strlen s + 1` calls reach `NULL`. -/
def strtok_all : Nat → CStr → List CStr
  | 0, _ => []
  | fuel + 1, s =>
    match strtok s with
    | none => []
    | some (t, rest) => t :: strtok_all fuel rest

/-- The tokens of a line: what `strtok` cuts out of the normalized line. -/
def line_tokens (command : CStr) : List CStr :=
  strtok_all ((preprocess_command command).length + 1) (preprocess_command command)

/-- The loop of `parse_command` run on a given sequence of tokens, from the token array `acc`. -/
def store_tokens (fs : FileSys) : List CStr → List CStr → List CStr
  | [], acc => acc
  | t :: ts, acc =>
    if acc.length < MAX_TOKENS - 1 then store_tokens fs ts (parse_token fs acc t) else acc

/-- A file system in which no directory can be opened. -/
def no_dir : FileSys := ⟨fun _ => none, fun _ => false, fun _ _ => '\x00'⟩


/-! ## Auxiliary definitions for the line reader -/

/-- The bytes not yet handed out: the unread part of the buffer, then the input still to come. -/
def pending (L : lines_t) (src : Source) : List Char :=
  segment L L.pos L.len ++ src.flatten

/-- The index of the first newline of a text, if any. -/
def first_newline : List Char → Option Nat
  | [] => none
  | c :: cs => if c = '\n' then some 0 else (first_newline cs).map (fun k => k + 1)

/-- A text cut at its first newline: the part before it, and the part after it when there is
a newline. -/
def cut_line : List Char → List Char × Option (List Char)
  | [] => ([], none)
  | c :: cs => if c = '\n' then ([], some cs) else (c :: (cut_line cs).1, (cut_line cs).2)

/-- The lines of an input text: its segments between consecutive newline terminators,
terminators excluded and empty segments included, then the bytes after the last terminator when
there are any. -/
def input_lines : List Char → List CStr
  | [] => []
  | c :: cs =>
    if c = '\n' then [] :: input_lines cs
    else
      match input_lines cs with
      | [] => [[c]]
      | l :: ls => (c :: l) :: ls

/-- The bytes of the current line gathered so far: those already copied to `line`, then those of
the buffer from `segment_start` up to `pos`. -/
def gathered (s : ReadState) : List Char :=
  s.line.getD [] ++ segment s.L s.segment_start s.L.pos

/-- The invariant of the loop of `read_command`. -/
def ReadInv (s : ReadState) : Prop :=
  s.segment_start ≤ s.L.pos ∧ s.L.pos ≤ s.L.len ∧ s.L.len ≤ s.L.buf.length ∧
    (∀ l, s.line = some l → l ≠ []) ∧ (∀ c ∈ s.src, 1 ≤ c.length)

/-- What a run of the loop of `read_command` must return when `acc` has been gathered and `p` is
still to be scanned: up to the first newline of `p` if there is one, and then the struct holds
what follows it; otherwise everything, or `NULL` when that is nothing, with the descriptor
closed. -/
def ReadSpec (acc p : List Char) (fd : Int) (r : Option (List Char) × lines_t × Source) : Prop :=
  match cut_line p with
  | (a, none) => r.1 = (if acc ++ a = [] then none else some (acc ++ a)) ∧ r.2.1.fd = -1
  | (a, some b) =>
    r.1 = some (acc ++ a) ∧ pending r.2.1 r.2.2 = b ∧ r.2.1.fd = fd ∧ r.2.1.pos ≤ r.2.1.len ∧
      r.2.1.len ≤ r.2.1.buf.length ∧ ∀ c ∈ r.2.2, 1 ≤ c.length


/-! ## Concrete environments -/

/-- A current directory holding the single regular file `a`. -/
def dir_a : FileSys :=
  ⟨fun p => if p = ['.'] then some [['a']] else none, fun _ => true, fun _ _ => '\x00'⟩

/-- The directory of the example of the specification: `a.txt`, `b.txt`, `note.md`, `.hidden.txt`,
all regular files. -/
def dir_txt : FileSys :=
  ⟨fun p => if p = ['.'] then
      some ["a.txt".toList, "b.txt".toList, "note.md".toList, ".hidden.txt".toList] else none,
    fun _ => true, fun _ _ => '\x00'⟩

/-- A system with the programs `/usr/bin/false` (ends with `exit(1)`), `/usr/bin/two` (ends with
`exit(2)`) and `/usr/bin/echo` (ends with `exit(0)`); every `open` and `fork` succeeds; the slot
after the array `dir_paths` holds `NULL`. -/
def env_bin : ProcEnv where
  open_in := fun _ => true
  open_out := fun _ => true
  access := fun p =>
    p == "/usr/bin/false".toList || p == "/usr/bin/two".toList || p == "/usr/bin/echo".toList
  fork_ok := true
  execv := fun p _ =>
    if p = "/usr/bin/false".toList then some (WaitStatus.exited 1)
    else if p = "/usr/bin/two".toList then some (WaitStatus.exited 2)
    else if p = "/usr/bin/echo".toList then some (WaitStatus.exited 0)
    else none
  chdir := fun _ => true
  getcwd := some ['/']
  path_env := some "/usr/bin".toList
  dir_paths_after := [StraySlot.null]

/-- A system in which no file can be opened and no program is found; the slot after the array
`dir_paths` holds `NULL`. -/
def env_none : ProcEnv where
  open_in := fun _ => false
  open_out := fun _ => false
  access := fun _ => false
  fork_ok := true
  execv := fun _ _ => none
  chdir := fun _ => false
  getcwd := none
  path_env := some []
  dir_paths_after := [StraySlot.null]

/-- The system `env_none` with `stray` as the memory after the array `dir_paths`. -/
def env_stray (stray : List StraySlot) : ProcEnv := { env_none with dir_paths_after := stray }

/-- The descriptors of an interpreter at its terminal: 0, 1 and 2, nothing else. -/
def std_table : FdTable := [(0, "tty".toList), (1, "tty".toList), (2, "tty".toList)]

/-- The digit character of `k`. -/
def digit (k : Nat) : Char := Char.ofNat (48 + k)

/-- The thousand names `f000` to `f999`. -/
def big_names : List CStr :=
  (List.range 1000).map (fun n => ['f', digit (n / 100), digit (n / 10 % 10), digit (n % 10)])

/-- A current directory holding the thousand regular files `f000` to `f999`. -/
def dir_big : FileSys :=
  ⟨fun p => if p = ['.'] then some big_names else none, fun _ => true, fun _ _ => '\x00'⟩

/-! ## Theorems: preprocess_command -/

theorem cget_append_length (done rest : CStr) :
    cget (done ++ rest) done.length = cget rest 0 := by
  simp [cget, List.getD_eq_getElem?_getD, List.getElem?_append_right]

theorem cget_append_length_add (done rest : CStr) (k : Nat) :
    cget (done ++ rest) (done.length + k) = cget rest k := by
  simp [cget, List.getD_eq_getElem?_getD, List.getElem?_append_right]

theorem prev_cond (done rest : CStr) :
    (0 < done.length ∧ cget (done ++ rest) (done.length - 1) ≠ ' ') ↔ endsSp done = false := by
  rcases List.eq_nil_or_concat done with h | ⟨d, x, h⟩
  · subst h; simp [endsSp]
  · subst h
    have h1 : cget (d ++ x :: rest) d.length = x := by
      rw [cget_append_length]; rfl
    simp [endsSp, h1]

theorem shiftInsert_append (done rest : CStr) :
    shiftInsert (done ++ rest) done.length = (done ++ [' ']) ++ rest := by
  simp [shiftInsert]

theorem endsSp_concat (done : CStr) (c : Char) : endsSp (done ++ [c]) = (c == ' ') := by
  simp [endsSp]

theorem isOp_ne_space {c : Char} (h : isOp c = true) : (c == ' ') = false := by
  by_cases hc : c = ' '
  · subst hc; simp [isOp] at h
  · simpa using hc

theorem cget_zero_ne_space (rest : CStr) : (cget rest 0 ≠ ' ') ↔ ¬ (rest.head? = some ' ') := by
  cases rest with
  | nil => simp [cget]
  | cons r rs => simp [cget]

/-- One iteration of the loop, on a buffer split at the index. -/
theorem preprocess_step_eq (done rest : CStr) (c : Char) :
    preprocess_step (done ++ c :: rest) done.length =
      if isOp c then
        ((done ++ (if endsSp done then [] else [' ']) ++ [c] ++
            (if rest.head? = some ' ' then [] else [' '])) ++ rest,
          (done ++ (if endsSp done then [] else [' ']) ++ [c] ++
            (if rest.head? = some ' ' then [] else [' '])).length)
      else ((done ++ [c]) ++ rest, (done ++ [c]).length) := by
  have h0 : cget (done ++ c :: rest) done.length = c := by
    rw [cget_append_length]; rfl
  by_cases hop : isOp c = true
  · simp only [preprocess_step, h0, hop, if_true]
    by_cases hp : endsSp done = true
    · have hp2 : ¬ (0 < done.length ∧ cget (done ++ c :: rest) (done.length - 1) ≠ ' ') := by
        rw [prev_cond]; simp [hp]
      have h1 : cget (done ++ c :: rest) (done.length + 1) = cget rest 0 := by
        rw [cget_append_length_add]; rfl
      simp only [hp2, if_false, hp, if_true, h1, cget_zero_ne_space]
      by_cases hh : rest.head? = some ' '
      · simp [hh]
      · have hs : shiftInsert (done ++ c :: rest) (done.length + 1) = done ++ c :: ' ' :: rest := by
          have := shiftInsert_append (done ++ [c]) rest
          simpa using this
        simp [hh, hs]
    · have hp2 : (0 < done.length ∧ cget (done ++ c :: rest) (done.length - 1) ≠ ' ') := by
        rw [prev_cond]; simpa using hp
      have hs0 : shiftInsert (done ++ c :: rest) done.length = done ++ ' ' :: c :: rest := by
        have := shiftInsert_append done (c :: rest)
        simpa using this
      have h1 : cget (done ++ ' ' :: c :: rest) (done.length + 1 + 1) = cget rest 0 := by
        rw [Nat.add_assoc, cget_append_length_add]; rfl
      obtain ⟨hpa, hpb⟩ := hp2
      simp only [hpa, hpb, ne_eq, not_false_eq_true, and_self, if_true, hs0, h1,
        cget_zero_ne_space]
      by_cases hh : rest.head? = some ' '
      · simp [hh, hp]
      · have hs : shiftInsert (done ++ ' ' :: c :: rest) (done.length + 1 + 1)
            = done ++ ' ' :: c :: ' ' :: rest := by
          have := shiftInsert_append (done ++ [' ', c]) rest
          simpa using this
        simp [hh, hs, hp]
  · simp [preprocess_step, h0, hop]

theorem preprocess_loop_eq (rest : CStr) :
    ∀ (fuel : Nat) (done : CStr), rest.length ≤ fuel → '\x00' ∉ rest →
      preprocess_loop fuel (done ++ rest) done.length = done ++ normalize (endsSp done) rest := by
  induction rest with
  | nil =>
    intro fuel done _ _
    cases fuel with
    | zero => simp [preprocess_loop, normalize]
    | succ n =>
      have h := cget_append_length done []
      simp only [List.append_nil] at h
      simp [preprocess_loop, normalize, h, cget]
  | cons c rest ih =>
    intro fuel done hf hn
    cases fuel with
    | zero => simp at hf
    | succ n =>
      have hc : c ≠ '\x00' := fun h => hn (by simp [h])
      have hr : '\x00' ∉ rest := fun h => hn (by simp [h])
      have hlen : rest.length ≤ n := by simpa using hf
      have h0 : cget (done ++ c :: rest) done.length = c := by
        rw [cget_append_length]; rfl
      simp only [preprocess_loop, h0, ne_eq, hc, not_false_eq_true, if_true,
        preprocess_step_eq, normalize]
      by_cases hop : isOp c = true
      · rw [if_pos hop, if_pos hop]
        simp only []
        rw [ih n _ hlen hr]
        by_cases hp : endsSp done = true <;> by_cases hh : rest.head? = some ' ' <;>
          simp [hp, hh, endsSp, isOp_ne_space hop]
      · rw [if_neg hop, if_neg hop]
        simp only []
        rw [ih n _ hlen hr]
        simp [endsSp]

theorem preprocess_command_eq (s : CStr) (hs : '\x00' ∉ s) :
    preprocess_command s = normalize true s := by
  have := preprocess_loop_eq s s.length [] (Nat.le_refl _) hs
  simpa [preprocess_command, endsSp] using this

/-- Fuel beyond `strlen(command)` changes nothing: the loop has reached the terminator. -/
theorem preprocess_loop_fuel (s : CStr) (hs : '\x00' ∉ s) (extra : Nat) :
    preprocess_loop (s.length + extra) s 0 = preprocess_command s := by
  have h1 := preprocess_loop_eq s (s.length + extra) [] (Nat.le_add_right _ _) hs
  have h2 := preprocess_loop_eq s s.length [] (Nat.le_refl _) hs
  simp only [List.nil_append, List.length_nil] at h1 h2
  rw [preprocess_command, h1, h2]

theorem normalize_of_Normal (l : CStr) : ∀ p, Normal p l = true → normalize p l = l := by
  induction l with
  | nil => intro p _; rfl
  | cons c rest ih =>
    intro p h
    by_cases hop : isOp c = true
    · simp only [Normal, hop, if_true, Bool.and_eq_true, beq_iff_eq] at h
      obtain ⟨⟨hp, hh⟩, hn⟩ := h
      simp [normalize, hop, hp, hh, ih false hn]
    · simp only [Normal, hop] at h
      simp [normalize, hop, ih _ h]

theorem normalize_head_space (p : Bool) (r : CStr) :
    normalize p (' ' :: r) = ' ' :: normalize true r := by
  simp [normalize, isOp]

theorem Normal_normalize (l : CStr) : ∀ p, Normal p (normalize p l) = true := by
  induction l with
  | nil => intro p; rfl
  | cons c rest ih =>
    intro p
    by_cases hop : isOp c = true
    · have hsp : isOp ' ' = false := by decide
      have key : Normal true (c :: (if rest.head? = some ' ' then normalize false rest
            else ' ' :: normalize true rest)) = true := by
        by_cases hh : rest.head? = some ' '
        · cases rest with
          | nil => simp at hh
          | cons r rs =>
            simp only [List.head?_cons, Option.some.injEq] at hh
            subst hh
            have := ih false
            rw [normalize_head_space] at this
            simp only [List.head?_cons, if_true, normalize_head_space]
            simp only [Normal, hop, if_true, List.head?_cons, Bool.true_and, beq_self_eq_true]
            simpa [Normal, hsp] using this
        · simp only [hh, if_false]
          simp only [Normal, hop, if_true, List.head?_cons, Bool.true_and, beq_self_eq_true, hsp]
          simpa using ih true
      cases p with
      | true => simpa [normalize, hop] using key
      | false =>
        simp only [normalize, hop, if_true]
        simp only [Bool.false_eq_true, if_false, List.singleton_append]
        rw [Normal]
        simpa [hsp] using key
    · simp only [normalize, hop]
      simp only [Normal, hop]
      exact ih _

theorem normalize_nul_free (l : CStr) : ∀ p, '\x00' ∉ l → '\x00' ∉ normalize p l := by
  induction l with
  | nil => intro p h; simp [normalize]
  | cons c rest ih =>
    intro p h
    have hc : ¬ ('\x00' = c) := fun e => h (by rw [e]; exact List.mem_cons_self _ _)
    have hr : '\x00' ∉ rest := fun e => h (List.mem_cons_of_mem _ e)
    have i1 := ih true hr
    have i2 := ih false hr
    have i3 := ih (c == ' ') hr
    by_cases hop : isOp c = true
    · by_cases hh : rest.head? = some ' ' <;> cases p <;> simp [normalize, hop, hh, hc, i1, i2]
    · simp [normalize, hop, hc, i3]

/-- C1. Operator normalization is idempotent: for every NUL-free line `s`,
`preprocess_command (preprocess_command s) = preprocess_command s` (the command buffer is taken large
enough for the normalized text). -/
theorem preprocess_command_idempotent (s : CStr) (hs : '\x00' ∉ s) :
    preprocess_command (preprocess_command s) = preprocess_command s := by
  rw [preprocess_command_eq s hs,
    preprocess_command_eq _ (normalize_nul_free s true hs)]
  exact normalize_of_Normal _ true (Normal_normalize s true)

/-- The line `ls>out|wc` is normalized to `ls > out | wc`, and normalizing that again changes nothing. -/
theorem preprocess_command_idempotent_witness :
    '\x00' ∉ "ls>out|wc".toList ∧
      preprocess_command (preprocess_command "ls>out|wc".toList) = preprocess_command "ls>out|wc".toList :=
  ⟨by decide, preprocess_command_idempotent _ (by decide)⟩


/-! ### Tokenizing a normalized line -/

theorem isOp_not_delim {c : Char} (h : isOp c = true) : isDelim c = false := by
  simp only [isOp, Bool.or_eq_true, beq_iff_eq] at h
  rcases h with (h | h) | h <;> subst h <;> decide

theorem Normal_mono (l : CStr) : ∀ p, Normal p l = true → Normal true l = true := by
  intro p h
  cases l with
  | nil => rfl
  | cons c rest =>
    by_cases hop : isOp c = true
    · simp only [Normal, hop, if_true, Bool.and_eq_true] at h
      simp only [Normal, hop, if_true, Bool.true_and, Bool.and_eq_true]
      exact ⟨h.1.2, h.2⟩
    · simp only [Normal, hop] at h ⊢
      exact h

theorem Normal_dropWhile (l : CStr) : Normal true l = true →
    Normal true (l.dropWhile isDelim) = true := by
  induction l with
  | nil => intro h; simpa using h
  | cons c rest ih =>
    intro h
    by_cases hd : isDelim c = true
    · have hop : ¬ isOp c = true := fun ho => by simp [isOp_not_delim ho] at hd
      simp only [Normal, hop] at h
      simp only [List.dropWhile_cons, hd, if_true]
      exact ih (Normal_mono _ _ h)
    · simp only [List.dropWhile_cons, hd]
      exact h

theorem plain_char {c : Char} (ho : ¬ isOp c = true) (hd : ¬ isDelim c = true) :
    c ≠ '|' ∧ c ≠ '<' ∧ c ≠ '>' ∧ c ≠ ' ' ∧ c ≠ '\t' ∧ c ≠ '\n' := by
  simp only [isOp, isDelim, Bool.or_eq_true, beq_iff_eq, not_or] at ho hd
  exact ⟨ho.2, ho.1.2, ho.1.1, hd.1.1, hd.1.2, hd.2⟩

theorem word_tail (l : CStr) : Normal false l = true →
    (∀ c ∈ l.takeWhile (fun x => !isDelim x),
        c ≠ '|' ∧ c ≠ '<' ∧ c ≠ '>' ∧ c ≠ ' ' ∧ c ≠ '\t' ∧ c ≠ '\n') ∧
      Normal true ((l.dropWhile (fun x => !isDelim x)).drop 1) = true := by
  induction l with
  | nil => intro _; simp [Normal]
  | cons x xs ih =>
    intro h
    by_cases hop : isOp x = true
    · simp [Normal, hop] at h
    · simp only [Normal, hop] at h
      by_cases hd : isDelim x = true
      · simp only [List.takeWhile_cons, List.dropWhile_cons, hd, Bool.not_true]
        simp only [Bool.false_eq_true, if_false, List.drop_succ_cons, List.drop_zero]
        exact ⟨by simp, Normal_mono _ _ h⟩
      · have hx : (x == ' ') = false := by
          simp only [isDelim, Bool.or_eq_true, beq_iff_eq, not_or] at hd
          simpa using hd.1.1
        rw [hx] at h
        have hd2 : isDelim x = false := by simpa using hd
        obtain ⟨i1, i2⟩ := ih h
        simp only [List.takeWhile_cons, List.dropWhile_cons, hd2, Bool.not_false, if_true]
        refine ⟨?_, i2⟩
        intro c hc
        rcases List.mem_cons.1 hc with e | e
        · subst e; exact plain_char hop hd
        · exact i1 c e

theorem filter_dropWhile_delim (l : CStr) :
    (l.dropWhile isDelim).filter (fun c => !isDelim c) = l.filter (fun c => !isDelim c) := by
  induction l with
  | nil => rfl
  | cons c rest ih =>
    by_cases hd : isDelim c = true
    · simp [List.dropWhile_cons, hd, ih]
    · simp [List.dropWhile_cons, hd]

theorem filter_word (l : CStr) :
    l.filter (fun c => !isDelim c) =
      l.takeWhile (fun x => !isDelim x) ++
        ((l.dropWhile (fun x => !isDelim x)).drop 1).filter (fun c => !isDelim c) := by
  induction l with
  | nil => rfl
  | cons c rest ih =>
    by_cases hd : isDelim c = true
    · simp [List.takeWhile_cons, List.dropWhile_cons, hd]
    · have hd2 : isDelim c = false := by simpa using hd
      simp only [List.takeWhile_cons, List.dropWhile_cons, hd2, Bool.not_false, if_true,
        List.filter_cons, List.cons_append]
      rw [← ih]

theorem not_mem_dropWhile {a : Char} (q : Char → Bool) (l : CStr) (h : a ∉ l) :
    a ∉ l.dropWhile q := fun hm => h ((List.dropWhile_sublist q).subset hm)

theorem not_mem_takeWhile {a : Char} (q : Char → Bool) (l : CStr) (h : a ∉ l) :
    a ∉ l.takeWhile q := fun hm => h ((List.takeWhile_sublist q).subset hm)

theorem not_mem_drop {a : Char} (n : Nat) (l : CStr) (h : a ∉ l) :
    a ∉ l.drop n := fun hm => h ((List.drop_sublist n l).subset hm)

theorem strtok_none (s : CStr) (h : strtok s = none) : s.filter (fun c => !isDelim c) = [] := by
  unfold strtok strtok_by at h
  split at h
  · rename_i he
    rw [← filter_dropWhile_delim, he]; rfl
  · simp at h

/-- What one `strtok` call yields on a normalized line. -/
theorem strtok_some (s t rest : CStr) (h : strtok s = some (t, rest)) (a : Char) :
    (Normal true s = true → GoodTok t ∧ Normal true rest = true) ∧
      (a ∉ s → a ∉ t ∧ a ∉ rest) ∧
      s.filter (fun c => !isDelim c) = t ++ rest.filter (fun c => !isDelim c) ∧ t ≠ [] := by
  unfold strtok strtok_by at h
  split at h
  · simp at h
  · rename_i c cs he
    simp only [Option.some.injEq, Prod.mk.injEq] at h
    obtain ⟨ht, hr⟩ := h
    have hcd : isDelim c = false := by
      have := List.head_dropWhile_not isDelim s (by rw [he]; simp)
      simpa [he] using this
    refine ⟨?_, ?_, ?_, ?_⟩
    · intro hn
      have hn1 : Normal true (c :: cs) = true := by
        rw [← he]; exact Normal_dropWhile s hn
      by_cases hop : isOp c = true
      · simp only [Normal, hop, if_true, Bool.true_and, Bool.and_eq_true, beq_iff_eq] at hn1
        obtain ⟨hh, hn2⟩ := hn1
        cases cs with
        | nil => simp at hh
        | cons d ds =>
          simp only [List.head?_cons, Option.some.injEq] at hh
          subst hh
          have hsp : isDelim ' ' = true := by decide
          have hsp2 : isOp ' ' = false := by decide
          simp only [List.takeWhile_cons, List.dropWhile_cons, hcd, hsp, Bool.not_false,
            Bool.not_true, if_true, Bool.false_eq_true, if_false, List.drop_succ_cons,
            List.drop_zero] at ht hr
          subst ht; subst hr
          constructor
          · simp only [isOp, Bool.or_eq_true, beq_iff_eq] at hop
            rcases hop with (h1 | h1) | h1 <;> subst h1 <;> simp [GoodTok]
          · simp only [Normal, hsp2] at hn2
            exact Normal_mono _ _ hn2
      · simp only [Normal, hop] at hn1
        have hx : (c == ' ') = false := by
          have : ¬ isDelim c = true := by simp [hcd]
          simp only [isDelim, Bool.or_eq_true, beq_iff_eq, not_or] at this
          simpa using this.1.1
        rw [hx] at hn1
        obtain ⟨w1, w2⟩ := word_tail cs hn1
        simp only [List.takeWhile_cons, List.dropWhile_cons, hcd, Bool.not_false, if_true] at ht hr
        subst ht; subst hr
        refine ⟨Or.inr (Or.inr (Or.inr ⟨by simp, ?_⟩)), w2⟩
        intro x hx
        rcases List.mem_cons.1 hx with e | e
        · subst e; exact plain_char hop (by simp [hcd])
        · exact w1 x e
    · intro ha
      have ha1 : a ∉ c :: cs := by rw [← he]; exact not_mem_dropWhile _ _ ha
      subst ht; subst hr
      exact ⟨not_mem_takeWhile _ _ ha1, not_mem_drop _ _ (not_mem_dropWhile _ _ ha1)⟩
    · rw [← filter_dropWhile_delim, he, filter_word (c :: cs), ht, hr]
    · rw [← ht]; simp [List.takeWhile_cons, hcd]

theorem filter_normalize (l : CStr) : ∀ p,
    (normalize p l).filter (fun c => !isDelim c) = l.filter (fun c => !isDelim c) := by
  induction l with
  | nil => intro p; rfl
  | cons c rest ih =>
    intro p
    have hsp : isDelim ' ' = true := by decide
    by_cases hop : isOp c = true
    · have hcd := isOp_not_delim hop
      by_cases hh : rest.head? = some ' ' <;> cases p <;>
        simp [normalize, hop, hh, hcd, hsp, ih, List.filter_cons]
    · simp [normalize, hop, ih, List.filter_cons]

theorem normalize_not_mem (a : Char) (ha : a ≠ ' ') (l : CStr) :
    ∀ p, a ∉ l → a ∉ normalize p l := by
  induction l with
  | nil => intro p h; simp [normalize]
  | cons c rest ih =>
    intro p h
    have hc : ¬ (a = c) := fun e => h (by rw [e]; exact List.mem_cons_self _ _)
    have hr : a ∉ rest := fun e => h (List.mem_cons_of_mem _ e)
    have i1 := ih true hr
    have i2 := ih false hr
    have i3 := ih (c == ' ') hr
    by_cases hop : isOp c = true
    · by_cases hh : rest.head? = some ' ' <;> cases p <;> simp [normalize, hop, hh, hc, i1, i2, ha]
    · simp [normalize, hop, hc, i3]

/-! ### Tokens without a wildcard -/

theorem find_wildcard_none (t : CStr) (h : '*' ∉ t) : (find_wildcard t).2 = false := by
  induction t with
  | nil => rfl
  | cons c cs ih =>
    have hc : ¬ (c = '*') := fun e => h (by rw [e]; exact List.mem_cons_self _ _)
    have hr : '*' ∉ cs := fun e => h (List.mem_cons_of_mem _ e)
    simp [find_wildcard, hc, ih hr]

theorem wildcard_matches_plain (fs : FileSys) (t : CStr) (h : '*' ∉ t) :
    wildcard_matches fs t = [] := by
  have := find_wildcard_none (t.drop (find_path t).1) (not_mem_drop _ _ h)
  simp [wildcard_matches, this]

theorem parse_token_plain (fs : FileSys) (t : CStr) (acc : List CStr) (h : '*' ∉ t) :
    parse_token fs acc t = acc ++ [t] := by
  simp [parse_token, check_wildcard, wildcard_matches_plain fs t h]

theorem parse_token_length (fs : FileSys) (acc : List CStr) (t : CStr) :
    acc.length + 1 ≤ (parse_token fs acc t).length := by
  simp only [parse_token, check_wildcard]
  by_cases h : 0 < (wildcard_matches fs t).length
  · rw [if_pos h, List.length_append]; omega
  · rw [if_neg h]; simp

/-- The loop never runs out of iterations: every iteration fills a slot and the loop stops at
`MAX_TOKENS - 1` filled slots, so extra fuel changes nothing. -/
theorem parse_loop_fuel (fs : FileSys) : ∀ (fuel : Nat) (tok : Option (CStr × CStr))
    (acc : List CStr) (extra : Nat), MAX_TOKENS - 1 ≤ fuel + acc.length →
    parse_loop fs (fuel + extra) tok acc = parse_loop fs fuel tok acc := by
  intro fuel
  induction fuel with
  | zero =>
    intro tok acc extra h
    cases extra with
    | zero => rfl
    | succ e =>
      cases tok with
      | none => simp [parse_loop]
      | some p =>
        have : ¬ (acc.length < MAX_TOKENS - 1) := by omega
        simp [parse_loop, this]
  | succ n ih =>
    intro tok acc extra h
    have e : n + 1 + extra = (n + extra) + 1 := by omega
    rw [e]
    cases tok with
    | none => simp [parse_loop]
    | some p =>
      obtain ⟨t, rest⟩ := p
      simp only [parse_loop]
      split
      · apply ih
        have := parse_token_length fs acc t
        omega
      · rfl

theorem parse_loop_plain (fs : FileSys) : ∀ (fuel : Nat) (s : CStr) (acc : List CStr),
    '*' ∉ s → Normal true s = true →
    (parse_loop fs fuel (strtok s) acc).length < MAX_TOKENS - 1 →
    MAX_TOKENS - 1 ≤ fuel + acc.length →
    ∃ ts, parse_loop fs fuel (strtok s) acc = acc ++ ts ∧ (∀ t ∈ ts, GoodTok t) ∧
      ts.flatten = s.filter (fun c => !isDelim c) := by
  intro fuel
  induction fuel with
  | zero =>
    intro s acc _ _ hlen hf
    simp only [parse_loop] at hlen
    omega
  | succ n ih =>
    intro s acc hstar hnorm hlen hf
    cases hs : strtok s with
    | none =>
      refine ⟨[], ?_, ?_, ?_⟩
      · simp [parse_loop]
      · simp
      · simp [strtok_none s hs]
    | some p =>
      obtain ⟨t, rest⟩ := p
      obtain ⟨h1, h2, h3, _⟩ := strtok_some s t rest hs '*'
      obtain ⟨hgood, hnr⟩ := h1 hnorm
      obtain ⟨hst, hsr⟩ := h2 hstar
      rw [hs] at hlen
      simp only [parse_loop] at hlen ⊢
      by_cases hc : acc.length < MAX_TOKENS - 1
      · rw [if_pos hc] at hlen ⊢
        rw [parse_token_plain fs t acc hst] at hlen ⊢
        obtain ⟨ts, e1, e2, e3⟩ := ih rest (acc ++ [t]) hsr hnr hlen (by simp; omega)
        refine ⟨t :: ts, ?_, ?_, ?_⟩
        · rw [e1]; simp
        · intro x hx
          rcases List.mem_cons.1 hx with e | e
          · subst e; exact hgood
          · exact e2 x e
        · rw [List.flatten_cons, e3, h3]
      · rw [if_neg hc] at hlen
        omega

/-- C2. For every line without `*` on which `parse_command` yields fewer than `MAX_TOKENS - 1 = 999`
tokens, every token is exactly `|`, `<` or `>`, or a non-empty string without `|`, `<`, `>`,
space, tab and newline, and the tokens concatenated in order are the line without its spaces,
tabs and newlines. In particular `echo|cat` gives the tokens `echo`, `|`, `cat`. -/
theorem parse_command_tokens (fs : FileSys) :
    (∀ line : CStr, '\x00' ∉ line → '*' ∉ line →
      (parse_command fs line).length < MAX_TOKENS - 1 →
      (∀ t ∈ parse_command fs line,
        t = ['|'] ∨ t = ['<'] ∨ t = ['>'] ∨
          (t ≠ [] ∧ ∀ c ∈ t, c ≠ '|' ∧ c ≠ '<' ∧ c ≠ '>' ∧ c ≠ ' ' ∧ c ≠ '\t' ∧ c ≠ '\n')) ∧
      (parse_command fs line).flatten = line.filter (fun c => !isDelim c)) ∧
    parse_command fs "echo|cat".toList = ["echo".toList, "|".toList, "cat".toList] := by
  constructor
  · intro line hnul hstar hlen
    unfold parse_command at hlen ⊢
    rw [preprocess_command_eq line hnul] at hlen ⊢
    obtain ⟨ts, e1, e2, e3⟩ := parse_loop_plain fs MAX_TOKENS (normalize true line) []
      (normalize_not_mem '*' (by decide) line true hstar) (Normal_normalize line true) hlen
      (by simp [MAX_TOKENS])
    rw [e1]
    simp only [List.nil_append]
    exact ⟨e2, by rw [e3, filter_normalize]⟩
  · have h : '*' ∉ "echo|cat".toList := by decide
    have e : preprocess_command "echo|cat".toList = "echo | cat".toList := by decide
    unfold parse_command
    rw [e]
    simp only [MAX_TOKENS]
    have s1 : strtok "echo | cat".toList = some ("echo".toList, "| cat".toList) := by decide
    have s2 : strtok "| cat".toList = some ("|".toList, "cat".toList) := by decide
    have s3 : strtok "cat".toList = some ("cat".toList, []) := by decide
    have s4 : strtok [] = none := by decide
    rw [s1]
    simp only [parse_loop, MAX_TOKENS, s2, s3, s4]
    rw [parse_token_plain fs _ _ (by decide), parse_token_plain fs _ _ (by decide),
      parse_token_plain fs _ _ (by decide)]
    simp


/-- The line `a|b > c` has no `*` and few tokens: its tokens are `a`, `|`, `b`, `>`, `c`. -/
theorem parse_command_tokens_witness :
    (∀ t ∈ parse_command no_dir "a|b > c".toList,
        t = ['|'] ∨ t = ['<'] ∨ t = ['>'] ∨
          (t ≠ [] ∧ ∀ c ∈ t, c ≠ '|' ∧ c ≠ '<' ∧ c ≠ '>' ∧ c ≠ ' ' ∧ c ≠ '\t' ∧ c ≠ '\n')) ∧
      (parse_command no_dir "a|b > c".toList).flatten =
        "a|b > c".toList.filter (fun c => !isDelim c) :=
  (parse_command_tokens no_dir).1 "a|b > c".toList (by decide) (by decide) (by decide)

/-! ## Theorems: wildcard tokens in parse_command -/

theorem strtok_length (s t rest : CStr) (h : strtok s = some (t, rest)) :
    rest.length < s.length := by
  have h3 := (strtok_some s t rest h ' ').2.2
  have e := congrArg List.length h3.1
  have l1 := List.length_filter_le (fun c => !isDelim c) s
  have l2 : rest.length ≤ s.length := by
    unfold strtok strtok_by at h
    split at h
    · simp at h
    · rename_i c cs he
      simp only [Option.some.injEq, Prod.mk.injEq] at h
      rw [← h.2]
      have a1 := (List.drop_sublist 1 (List.dropWhile (fun x => !isDelim x) (c :: cs))).length_le
      have a2 := (List.dropWhile_sublist (fun x => !isDelim x) (l := c :: cs)).length_le
      have a3 := (List.dropWhile_sublist isDelim (l := s)).length_le
      rw [he] at a3
      omega
  have ht : 0 < t.length := List.length_pos.2 h3.2
  by_contra hc
  have hs : rest.length = s.length := by omega
  -- the token and the text left share the bytes of `s`
  unfold strtok strtok_by at h
  split at h
  · simp at h
  · rename_i c cs he
    simp only [Option.some.injEq, Prod.mk.injEq] at h
    have a1 := (List.drop_sublist 1 (List.dropWhile (fun x => !isDelim x) (c :: cs))).length_le
    have a3 := (List.dropWhile_sublist isDelim (l := s)).length_le
    have a4 : ((c :: cs).takeWhile (fun x => !isDelim x)).length +
        ((c :: cs).dropWhile (fun x => !isDelim x)).length = (c :: cs).length := by
      rw [← List.length_append, List.takeWhile_append_dropWhile]
    rw [he] at a3
    rw [h.1] at a4
    rw [h.2] at a1
    omega

theorem store_tokens_full (fs : FileSys) (ts acc : List CStr)
    (h : ¬ acc.length < MAX_TOKENS - 1) : store_tokens fs ts acc = acc := by
  cases ts with
  | nil => rfl
  | cons t ts => simp [store_tokens, h]

/-- The loop of `parse_command` processes the tokens of the line one by one. -/
theorem parse_loop_eq_store (fs : FileSys) : ∀ (fuel : Nat) (s : CStr) (acc : List CStr) (k : Nat),
    MAX_TOKENS - 1 ≤ fuel + acc.length → s.length < k →
    parse_loop fs fuel (strtok s) acc = store_tokens fs (strtok_all k s) acc := by
  intro fuel
  induction fuel with
  | zero =>
    intro s acc k h _
    rw [store_tokens_full fs _ acc (by omega)]
    rfl
  | succ n ih =>
    intro s acc k h hk
    cases k with
    | zero => omega
    | succ k =>
      cases hs : strtok s with
      | none => simp [parse_loop, strtok_all, hs, store_tokens]
      | some p =>
        obtain ⟨t, rest⟩ := p
        have hl := strtok_length s t rest hs
        simp only [parse_loop, strtok_all, hs, store_tokens]
        by_cases hc : acc.length < MAX_TOKENS - 1
        · rw [if_pos hc, if_pos hc]
          apply ih
          · have := parse_token_length fs acc t
            omega
          · omega
        · rw [if_neg hc, if_neg hc]

theorem parse_command_eq_store (fs : FileSys) (line : CStr) :
    parse_command fs line = store_tokens fs (line_tokens line) [] := by
  unfold parse_command line_tokens
  exact parse_loop_eq_store fs MAX_TOKENS _ [] _ (by simp [MAX_TOKENS]) (Nat.lt_succ_self _)

theorem store_tokens_extends (fs : FileSys) (ts : List CStr) :
    ∀ acc, ∃ more, store_tokens fs ts acc = acc ++ more := by
  induction ts with
  | nil => intro acc; exact ⟨[], by simp [store_tokens]⟩
  | cons t ts ih =>
    intro acc
    simp only [store_tokens]
    by_cases hc : acc.length < MAX_TOKENS - 1
    · rw [if_pos hc]
      obtain ⟨m, hm⟩ := ih (parse_token fs acc t)
      rw [hm]
      simp only [parse_token, check_wildcard]
      by_cases h : 0 < (wildcard_matches fs t).length
      · rw [if_pos h]; exact ⟨wildcard_matches fs t ++ m, by simp⟩
      · rw [if_neg h]; exact ⟨[t] ++ m, by simp⟩
    · rw [if_neg hc]; exact ⟨[], by simp⟩

theorem store_tokens_append (fs : FileSys) (pre : List CStr) : ∀ (rest acc : List CStr),
    (store_tokens fs pre acc).length < MAX_TOKENS - 1 →
    store_tokens fs (pre ++ rest) acc = store_tokens fs rest (store_tokens fs pre acc) := by
  induction pre with
  | nil => intro rest acc _; rfl
  | cons t ts ih =>
    intro rest acc h
    simp only [store_tokens, List.cons_append] at h ⊢
    by_cases hc : acc.length < MAX_TOKENS - 1
    · rw [if_pos hc] at h
      rw [if_pos hc, if_pos hc]
      exact ih rest _ h
    · rw [if_neg hc] at h
      exact absurd h hc

/-- C3 (counterexample). With no directory to list, the pattern `*.txt` of the line `ls *.txt`
matches zero entries, and `parse_command` keeps it as a token. -/
theorem literal_pattern_survives :
    '*' ∈ "*.txt".toList ∧ "*.txt".toList ∈ line_tokens "ls *.txt".toList ∧
      wildcard_matches no_dir "*.txt".toList = [] ∧
      parse_command no_dir "ls *.txt".toList = ["ls".toList, "*.txt".toList] := by
  decide

/-- C3 (amended). For every line and every token of it that contains `*`: if the expansion of the
token matches zero directory entries (also when the directory cannot be opened) and the cap of
`MAX_TOKENS - 1` stored tokens is not reached before it, `parse_command` stores exactly one
token for it, the token itself as it is written, right after what the tokens before it
produced; the tokens after it are then processed from that token array on. -/
theorem zero_match_token_kept (fs : FileSys) (line : CStr) (pre post : List CStr) (t : CStr)
    (hline : line_tokens line = pre ++ t :: post) (_hstar : '*' ∈ t)
    (hzero : wildcard_matches fs t = [])
    (hcap : (store_tokens fs pre []).length < MAX_TOKENS - 1) :
    parse_command fs line = store_tokens fs post (store_tokens fs pre [] ++ [t]) ∧
      parse_token fs (store_tokens fs pre []) t = store_tokens fs pre [] ++ [t] ∧
      ∃ more, parse_command fs line = store_tokens fs pre [] ++ t :: more ∧
        store_tokens fs post (store_tokens fs pre [] ++ [t]) =
          (store_tokens fs pre [] ++ [t]) ++ more := by
  have e : parse_token fs (store_tokens fs pre []) t = store_tokens fs pre [] ++ [t] := by
    simp [parse_token, check_wildcard, hzero]
  have h1 : parse_command fs line = store_tokens fs post (store_tokens fs pre [] ++ [t]) := by
    rw [parse_command_eq_store, hline, store_tokens_append fs pre _ [] hcap]
    simp only [store_tokens]
    rw [if_pos hcap, e]
  obtain ⟨m, hm⟩ := store_tokens_extends fs post (store_tokens fs pre [] ++ [t])
  exact ⟨h1, e, m, by rw [h1, hm]; simp, hm⟩

/-- With no directory to list, the pattern of `ls *.c -l` is stored once, after the token `ls`
and before the token `-l`. -/
theorem zero_match_token_kept_witness :
    parse_command no_dir "ls *.c -l".toList =
        store_tokens no_dir ["-l".toList] (store_tokens no_dir ["ls".toList] [] ++ ["*.c".toList]) ∧
      parse_command no_dir "ls *.c -l".toList = ["ls".toList, "*.c".toList, "-l".toList] :=
  ⟨(zero_match_token_kept no_dir "ls *.c -l".toList ["ls".toList] ["-l".toList] "*.c".toList
    (by decide) (by decide) (by decide) (by decide)).1, by decide⟩

/-! ## Theorems: check_wildcard on one directory entry -/

/-- C4 (the code at the failing input). In a directory holding the regular file `a`, the pattern
`a*a` (text before the wildcard `a`, text after it `a`) makes `check_wildcard` store the name `a`,
which is shorter than the two texts together. The example of the specification, `*.txt`,
yields `a.txt` and `b.txt`. -/
theorem short_name_emitted :
    wildcard_matches dir_a "a*a".toList = ["a".toList] ∧
      (check_wildcard dir_a "a*a".toList []).2 = 1 ∧
      "a".toList.length < "a".toList.length + "a".toList.length ∧
      wildcard_matches dir_txt "*.txt".toList = ["a.txt".toList, "b.txt".toList] := by
  decide

/-! ## Theorems: currstatus and the conditional prefixes -/

/-- C5 (the code at the failing input). The external command `false` ends with `exit(1)`; that
leaves `currstatus = 1`, so a following `then echo hi` is executed and a following
`else echo hi` is not. -/
theorem then_runs_after_exit_one :
    (execute_command env_bin 1 (to_array ["false".toList])).currstatus = 1 ∧
      executed (execute_command env_bin
        (execute_command env_bin 1 (to_array ["false".toList])).currstatus
        (to_array ["then".toList, "echo".toList, "hi".toList])) = true ∧
      executed (execute_command env_bin
        (execute_command env_bin 1 (to_array ["false".toList])).currstatus
        (to_array ["else".toList, "echo".toList, "hi".toList])) = false := by
  decide

/-- C6 (the code at the failing input). An external command that ends with `exit(2)` leaves
`currstatus = 2`; then neither `then echo hi` nor `else echo hi` is executed. -/
theorem neither_then_nor_else_after_exit_two :
    (execute_command env_bin 1 (to_array ["two".toList])).currstatus = 2 ∧
      executed (execute_command env_bin 2
        (to_array ["then".toList, "echo".toList, "hi".toList])) = false ∧
      executed (execute_command env_bin 2
        (to_array ["else".toList, "echo".toList, "hi".toList])) = false := by
  decide

theorem search_stray_lost (stray slots : List StraySlot) (name : CStr) (tokens : TokenArray) :
    search_stray (env_stray stray) name tokens slots = Search.exhausted ∨
      search_stray (env_stray stray) name tokens slots = Search.fault := by
  induction slots with
  | nil => right; rfl
  | cons s slots ih =>
    cases s with
    | null => left; rfl
    | wild => right; rfl
    | text d =>
      have ha : (env_stray stray).access (d ++ '/' :: name) = false := rfl
      simp only [search_stray, ha, Bool.false_eq_true, if_false]
      exact ih

theorem execute_lost (stray : List StraySlot) :
    execute_command (env_stray stray) 1 (to_array ["nosuchcmd".toList]) =
      match search_stray (env_stray stray) "nosuchcmd".toList (to_array ["nosuchcmd".toList])
          stray with
      | Search.ran st ev =>
        ⟨st, [Event.save_std] ++ ev ++ [Event.restore_std], Ending.returned⟩
      | Search.exhausted =>
        ⟨1, [Event.save_std, Event.not_found "nosuchcmd".toList, Event.restore_std],
          Ending.returned⟩
      | Search.fault => ⟨1, [Event.save_std], Ending.stray_read⟩ := by
  have h0 : slot (to_array ["nosuchcmd".toList]) 0 = some "nosuchcmd".toList := by decide
  have h1 : ¬ ("nosuchcmd".toList = "then".toList) := by decide
  have h2 : ¬ ("nosuchcmd".toList = "else".toList) := by decide
  have h3 : is_builtin "nosuchcmd".toList = false := by decide
  have h4 : check_slash "nosuchcmd".toList = 0 := by decide
  have ha : ∀ p, (env_stray stray).access p = false := fun _ => rfl
  have hd : (env_stray stray).dir_paths_after = stray := rfl
  simp only [execute_command, gate_else, dispatch, h0, h1, h2, h3, h4, if_false, if_true,
    Bool.false_eq_true, DIR_PATHS, search_dirs, ha, hd]
  rfl

/-- C7 (the code at the failing input). With `currstatus = 1`, on the command `nosuchcmd`, which
none of the three search directories holds, the loop of line 266 reads `dir_paths[3]`, after the
end of the array. Whatever the memory there holds, `currstatus` is still 1 afterwards and no
child is created: either the loop ends, the command is reported as not found and
`execute_command` returns, or the read faults. With `NULL` in the slot after the array it is the
first, with no readable memory after the array the second. -/
theorem not_found_keeps_status (stray : List StraySlot) :
    (execute_command (env_stray stray) 1 (to_array ["nosuchcmd".toList])).currstatus = 1 ∧
      (execute_command (env_stray stray) 1 (to_array ["nosuchcmd".toList]) =
          ⟨1, [Event.save_std, Event.not_found "nosuchcmd".toList, Event.restore_std],
            Ending.returned⟩ ∨
        execute_command (env_stray stray) 1 (to_array ["nosuchcmd".toList]) =
          ⟨1, [Event.save_std], Ending.stray_read⟩) ∧
      execute_command (env_stray [StraySlot.null]) 1 (to_array ["nosuchcmd".toList]) =
        ⟨1, [Event.save_std, Event.not_found "nosuchcmd".toList, Event.restore_std],
          Ending.returned⟩ ∧
      execute_command (env_stray []) 1 (to_array ["nosuchcmd".toList]) =
        ⟨1, [Event.save_std], Ending.stray_read⟩ := by
  have key : execute_command (env_stray stray) 1 (to_array ["nosuchcmd".toList]) =
        ⟨1, [Event.save_std, Event.not_found "nosuchcmd".toList, Event.restore_std],
          Ending.returned⟩ ∨
      execute_command (env_stray stray) 1 (to_array ["nosuchcmd".toList]) =
        ⟨1, [Event.save_std], Ending.stray_read⟩ := by
    rw [execute_lost]
    rcases search_stray_lost stray stray "nosuchcmd".toList (to_array ["nosuchcmd".toList])
      with h | h
    · left; rw [h]
    · right; rw [h]
  refine ⟨?_, key, by decide, by decide⟩
  rcases key with h | h <;> rw [h]

/-- The same for every system and every command: when `tokens[0]` is no conditional word, no
built-in name and has no `/`, and the search does not come upon a directory that holds it,
`execute_command` leaves `currstatus` as it was: it either reports the command as not found and
returns, or faults on the memory after the array `dir_paths`. -/
theorem lost_command_status (env : ProcEnv) (currstatus : Int) (name : CStr) (args : List CStr)
    (hthen : name ≠ "then".toList) (helse : name ≠ "else".toList)
    (hb : is_builtin name = false) (hs : check_slash name = 0)
    (hlost : ∀ st ev, search_dirs env name (to_array (name :: args)) DIR_PATHS ≠ Search.ran st ev) :
    execute_command env currstatus (to_array (name :: args)) =
        ⟨currstatus, [Event.save_std, Event.not_found name, Event.restore_std],
          Ending.returned⟩ ∨
      execute_command env currstatus (to_array (name :: args)) =
        ⟨currstatus, [Event.save_std], Ending.stray_read⟩ := by
  have h0 : slot (to_array (name :: args)) 0 = some name := by simp [slot, to_array]
  simp only [execute_command, gate_else, dispatch, h0, hthen, helse, hb, hs, if_false, if_true,
    Bool.false_eq_true]
  cases hsd : search_dirs env name (to_array (name :: args)) DIR_PATHS with
  | ran st ev => exact absurd hsd (hlost st ev)
  | exhausted => left; simp
  | fault => right; rfl

/-! ## Theorems: check_redirection -/

/-- C8 (counterexample). On `cmd > a > b`, with every `open` succeeding, `check_redirection`
returns and the argument vector is `cmd > a`: the first `>` and its operand stay. -/
theorem repeated_operator_survives :
    (check_redirection env_bin
        (to_array ["cmd".toList, ">".toList, "a".toList, ">".toList, "b".toList])).map
      (fun r => argv r.tokens) = some ["cmd".toList, ">".toList, "a".toList] := by
  decide

/-- C9 (the code at the failing input). On `echo hi >`, even when no file can be opened,
`check_redirection` reports nothing and returns normally, with the token array untouched and
nothing redirected; the command is then dispatched with `echo hi >` as its argument vector. On
`sort < in <` the trailing `<` also makes it drop the redirection from `in`. -/
theorem trailing_operator_is_silent :
    check_redirection env_none (to_array ["echo".toList, "hi".toList, ">".toList]) =
        some ⟨to_array ["echo".toList, "hi".toList, ">".toList], none, none⟩ ∧
      argv (to_array ["echo".toList, "hi".toList, ">".toList]) =
        ["echo".toList, "hi".toList, ">".toList] ∧
      child_process env_bin "/usr/bin/echo".toList
        (to_array ["echo".toList, "hi".toList, ">".toList]) =
        (env_bin.execv "/usr/bin/echo".toList
          ["echo".toList, "hi".toList, ">".toList]).getD (WaitStatus.exited EXIT_FAILURE) ∧
      check_redirection env_bin (to_array ["sort".toList, "<".toList, "in".toList, "<".toList]) =
        some ⟨to_array ["sort".toList, "<".toList, "in".toList, "<".toList], none, none⟩ := by
  decide

/-! ### What check_redirection does to the token array -/

theorem scan_last_output (pre : List CStr) : ∀ (i : Nat) (st : RedirScan),
    (scan_redirection (to_array (pre ++ [['>']])) i st).output_file = none := by
  induction pre with
  | nil => intro i st; simp [to_array, scan_redirection, slot]
  | cons t pre ih =>
    intro i st
    have e : to_array (t :: pre ++ [['>']]) = some t :: to_array (pre ++ [['>']]) := by
      simp [to_array]
    rw [e]
    simp only [scan_redirection]
    split
    · exact ih _ _
    · split
      · exact ih _ _
      · exact ih _ _

theorem scan_last_input (pre : List CStr) : ∀ (i : Nat) (st : RedirScan),
    (scan_redirection (to_array (pre ++ [['<']])) i st).input_file = none := by
  induction pre with
  | nil => intro i st; simp [to_array, scan_redirection, slot]
  | cons t pre ih =>
    intro i st
    have e : to_array (t :: pre ++ [['<']]) = some t :: to_array (pre ++ [['<']]) := by
      simp [to_array]
    rw [e]
    simp only [scan_redirection]
    split
    · exact ih _ _
    · split
      · exact ih _ _
      · exact ih _ _

/-- The scan passes over tokens that are no redirection operators without touching its locals. -/
theorem scan_plain (pre : List CStr) (hpre : ∀ t ∈ pre, t ≠ ['<'] ∧ t ≠ ['>']) :
    ∀ (l : TokenArray) (i : Nat) (st : RedirScan),
      scan_redirection (pre.map some ++ l) i st = scan_redirection l (i + pre.length) st := by
  induction pre with
  | nil => intro l i st; rfl
  | cons t pre ih =>
    intro l i st
    have h1 := (hpre t (List.mem_cons_self _ _)).1
    have h2 := (hpre t (List.mem_cons_self _ _)).2
    have e : (t :: pre).map some ++ l = some t :: (pre.map some ++ l) := by simp
    rw [e]
    simp only [scan_redirection, h1, h2, if_false, List.length_cons]
    rw [ih (fun x hx => hpre x (List.mem_cons_of_mem _ hx))]
    congr 1
    omega

theorem scan_keeps_input (ts : List CStr) (h : ['<'] ∉ ts) : ∀ (i : Nat) (st : RedirScan),
    (scan_redirection (to_array ts) i st).input_file = st.input_file ∧
      (scan_redirection (to_array ts) i st).input_index = st.input_index := by
  induction ts with
  | nil => intro i st; simp [to_array, scan_redirection]
  | cons t ts ih =>
    intro i st
    have ht : t ≠ ['<'] := fun e => h (by rw [e]; exact List.mem_cons_self _ _)
    have hr : ['<'] ∉ ts := fun e => h (List.mem_cons_of_mem _ e)
    have e : to_array (t :: ts) = some t :: to_array ts := by simp [to_array]
    rw [e]
    simp only [scan_redirection, ht, if_false]
    split
    · exact ih hr _ _
    · exact ih hr _ _

theorem scan_keeps_output (ts : List CStr) (h : ['>'] ∉ ts) : ∀ (i : Nat) (st : RedirScan),
    (scan_redirection (to_array ts) i st).output_file = st.output_file ∧
      (scan_redirection (to_array ts) i st).output_index = st.output_index := by
  induction ts with
  | nil => intro i st; simp [to_array, scan_redirection]
  | cons t ts ih =>
    intro i st
    have ht : t ≠ ['>'] := fun e => h (by rw [e]; exact List.mem_cons_self _ _)
    have hr : ['>'] ∉ ts := fun e => h (List.mem_cons_of_mem _ e)
    have e : to_array (t :: ts) = some t :: to_array ts := by simp [to_array]
    rw [e]
    simp only [scan_redirection, ht, if_false]
    split
    · exact ih hr _ _
    · exact ih hr _ _

/-- An index recorded by the scan is the index of a slot it visited. -/
theorem scan_index_ge (l : TokenArray) : ∀ (i : Nat) (st : RedirScan),
    ((scan_redirection l i st).input_file = st.input_file ∧
        (scan_redirection l i st).input_index = st.input_index ∨
      (i : Int) ≤ (scan_redirection l i st).input_index) ∧
    ((scan_redirection l i st).output_file = st.output_file ∧
        (scan_redirection l i st).output_index = st.output_index ∨
      (i : Int) ≤ (scan_redirection l i st).output_index) := by
  induction l with
  | nil => intro i st; simp [scan_redirection]
  | cons x l ih =>
    intro i st
    cases x with
    | none => simp [scan_redirection]
    | some t =>
      simp only [scan_redirection]
      split
      · obtain ⟨a, b⟩ := ih (i + 1) { st with input_file := slot l 0, input_index := i }
        constructor
        · right
          rcases a with a | a
          · rw [a.2]
          · push_cast at a; omega
        · rcases b with b | b
          · left; exact b
          · right; push_cast at b; omega
      · split
        · obtain ⟨a, b⟩ := ih (i + 1) { st with output_file := slot l 0, output_index := i }
          constructor
          · rcases a with a | a
            · left; exact a
            · right; push_cast at a; omega
          · right
            rcases b with b | b
            · rw [b.2]
            · push_cast at b; omega
        · obtain ⟨a, b⟩ := ih (i + 1) st
          constructor
          · rcases a with a | a
            · left; exact a
            · right; push_cast at a; omega
          · rcases b with b | b
            · left; exact b
            · right; push_cast at b; omega

theorem take_set_ge {α : Type} (a : α) (n m : Nat) (l : List α) (h : m ≤ n) :
    (l.set n a).take m = l.take m := by
  apply List.ext_getElem?
  intro i
  rw [List.getElem?_take, List.getElem?_take]
  split
  · rw [List.getElem?_set_ne (by omega)]
  · rfl

theorem clear_pair_length (arr : TokenArray) (j : Int) :
    (clear_pair arr j).length = arr.length := by
  simp [clear_pair]

theorem clear_pair_take (arr : TokenArray) (j : Int) (k : Nat) (h : (k : Int) ≤ j) :
    (clear_pair arr j).take k = arr.take k := by
  unfold clear_pair
  rw [take_set_ge _ _ _ _ (by omega), take_set_ge _ _ _ _ (by omega)]

theorem clear_pair_at (arr : TokenArray) (k : Nat) (h : k < arr.length) :
    (clear_pair arr (k : Int))[k]? = some none := by
  unfold clear_pair
  rw [List.getElem?_set]
  simp [h]

theorem clear_pair_above (arr : TokenArray) (j : Int) (k : Nat) (h : (k : Int) ≤ j)
    (hk : arr[k]? = some none) : (clear_pair arr j)[k]? = some none := by
  have hlen : k < arr.length := by
    rcases List.getElem?_eq_some.1 hk with ⟨h1, _⟩
    exact h1
  by_cases e : j = (k : Int)
  · rw [e]; exact clear_pair_at arr k hlen
  · unfold clear_pair
    rw [List.getElem?_set_ne (by omega), List.getElem?_set_ne (by omega)]
    exact hk

/-- An array whose first slots hold `pre` and whose next slot holds `NULL` has `pre` as its
argument vector. -/
theorem argv_of_intact (pre : List CStr) (arr : TokenArray)
    (h1 : arr.take pre.length = pre.map some) (h2 : arr[pre.length]? = some none) :
    argv arr = pre := by
  rcases List.getElem?_eq_some.1 h2 with ⟨hl, hx⟩
  have e : arr = pre.map some ++ none :: arr.drop (pre.length + 1) := by
    conv_lhs => rw [← List.take_append_drop pre.length arr, h1]
    rw [List.drop_eq_getElem_cons hl, hx]
  rw [e]
  unfold argv
  rw [List.takeWhile_append_of_pos (by simp)]
  simp [List.filterMap_map]

theorem check_redirection_tokens (env : ProcEnv) (tokens : TokenArray) (r : Redirected)
    (h : check_redirection env tokens = some r) :
    r.tokens =
      (match (scan_redirection tokens 0 ⟨-1, -1, none, none⟩).output_file with
        | none =>
          (match (scan_redirection tokens 0 ⟨-1, -1, none, none⟩).input_file with
            | none => tokens
            | some _ => clear_pair tokens (scan_redirection tokens 0 ⟨-1, -1, none, none⟩).input_index)
        | some _ =>
          clear_pair
            (match (scan_redirection tokens 0 ⟨-1, -1, none, none⟩).input_file with
              | none => tokens
              | some _ =>
                clear_pair tokens (scan_redirection tokens 0 ⟨-1, -1, none, none⟩).input_index)
            (scan_redirection tokens 0 ⟨-1, -1, none, none⟩).output_index) := by
  unfold check_redirection at h
  generalize scan_redirection tokens 0 ⟨-1, -1, none, none⟩ = st at h ⊢
  obtain ⟨ii, oi, fi, fo⟩ := st
  cases fi with
  | none =>
    cases fo with
    | none => simp at h; rw [← h]
    | some g =>
      by_cases ho : env.open_out g = true
      · simp [ho] at h; rw [← h]
      · simp [ho] at h
  | some f =>
    by_cases hi : env.open_in f = true
    · cases fo with
      | none => simp [hi] at h; rw [← h]
      | some g =>
        by_cases ho : env.open_out g = true
        · simp [hi, ho] at h; rw [← h]
        · simp [hi, ho] at h
    · simp [hi] at h

theorem scan_at_input (rest : TokenArray) (i : Nat) (st : RedirScan) :
    scan_redirection (some ['<'] :: rest) i st =
      scan_redirection rest (i + 1) { st with input_file := slot rest 0, input_index := i } := by
  rw [scan_redirection]; simp

theorem scan_at_output (rest : TokenArray) (i : Nat) (st : RedirScan) :
    scan_redirection (some ['>'] :: rest) i st =
      scan_redirection rest (i + 1) { st with output_file := slot rest 0, output_index := i } := by
  rw [scan_redirection]; simp

theorem to_array_append (pre rest : List CStr) :
    to_array (pre ++ rest) = pre.map some ++ to_array rest := by
  simp [to_array]

theorem to_array_take (pre rest : List CStr) :
    (to_array (pre ++ rest)).take pre.length = pre.map some := by
  rw [to_array_append]
  simp [List.take_append_eq_append_take]

/-- C8 (amended). For every token sequence in which `<` occurs at most once, `>` occurs at most
once and the last token is neither, if `check_redirection` returns (its opens succeed), the
argument vector handed on consists exactly of the tokens before the first redirection operator:
it holds no `<`, no `>` and none of the slots of their operands. -/
theorem argv_after_redirection (env : ProcEnv) (toks : List CStr) (r : Redirected)
    (hin : toks.count ['<'] ≤ 1) (hout : toks.count ['>'] ≤ 1)
    (hlast : toks.getLast? ≠ some ['<'] ∧ toks.getLast? ≠ some ['>'])
    (hret : check_redirection env (to_array toks) = some r) :
    argv r.tokens = toks.takeWhile (fun t => t != ['<'] && t != ['>']) ∧
      ['<'] ∉ argv r.tokens ∧ ['>'] ∉ argv r.tokens := by
  have key : argv r.tokens = toks.takeWhile (fun t => t != ['<'] && t != ['>']) := by
    have hsplit := List.takeWhile_append_dropWhile (fun t => t != ['<'] && t != ['>']) toks
    generalize hp : toks.takeWhile (fun t => t != ['<'] && t != ['>']) = pre at hsplit
    have hpre : ∀ t ∈ pre, t ≠ ['<'] ∧ t ≠ ['>'] := by
      intro t ht
      rw [← hp] at ht
      have := List.mem_takeWhile_imp ht
      simpa using this
    have ht := check_redirection_tokens env (to_array toks) r hret
    cases hd : toks.dropWhile (fun t => t != ['<'] && t != ['>']) with
    | nil =>
      rw [hd, List.append_nil] at hsplit
      subst hsplit
      have hs : scan_redirection (to_array pre) 0 ⟨-1, -1, none, none⟩ = ⟨-1, -1, none, none⟩ := by
        unfold to_array
        rw [scan_plain pre hpre]
        simp [scan_redirection]
      rw [hs] at ht
      simp only at ht
      rw [ht]
      apply argv_of_intact
      · simp [to_array]
      · simp [to_array]
    | cons o rest =>
      rw [hd] at hsplit
      have ho : o = ['<'] ∨ o = ['>'] := by
        have := List.head_dropWhile_not (fun t => t != ['<'] && t != ['>']) toks
          (by rw [hd]; simp)
        simp only [hd, List.head_cons] at this
        by_cases h1 : o = ['<']
        · exact Or.inl h1
        · by_cases h2 : o = ['>']
          · exact Or.inr h2
          · simp [h1, h2] at this
      subst hsplit
      -- the operator is not the last token
      cases rest with
      | nil =>
        rcases ho with e | e
        · exact absurd (by simp [e]) hlast.1
        · exact absurd (by simp [e]) hlast.2
      | cons f rest =>
        have hP := to_array_take pre (o :: f :: rest)
        have hlen : pre.length < (to_array (pre ++ o :: f :: rest)).length := by
          simp [to_array]
        have hscan : scan_redirection (to_array (pre ++ o :: f :: rest)) 0 ⟨-1, -1, none, none⟩ =
            scan_redirection (to_array (o :: f :: rest)) pre.length ⟨-1, -1, none, none⟩ := by
          rw [to_array_append, scan_plain pre hpre]
          simp
        rw [hscan] at ht
        have hstep : to_array (o :: f :: rest) = some o :: to_array (f :: rest) := by
          simp [to_array]
        have hslot : slot (to_array (f :: rest)) 0 = some f := by simp [to_array, slot]
        rcases ho with e | e
        · subst e
          have hnot : ['<'] ∉ f :: rest := by
            intro hm
            have : 2 ≤ (pre ++ ['<'] :: f :: rest).count ['<'] := by
              rw [List.count_append, List.count_cons_self]
              have := List.count_pos_iff.2 hm
              omega
            omega
          rw [hstep, scan_at_input, hslot] at ht
          obtain ⟨k1, k2⟩ := scan_keeps_input (f :: rest) hnot (pre.length + 1)
            ⟨pre.length, -1, some f, none⟩
          obtain ⟨_, g2⟩ := scan_index_ge (to_array (f :: rest)) (pre.length + 1)
            ⟨pre.length, -1, some f, none⟩
          generalize scan_redirection (to_array (f :: rest)) (pre.length + 1)
            ⟨pre.length, -1, some f, none⟩ = st at ht k1 k2 g2
          obtain ⟨ii, oi, fi, fo⟩ := st
          simp only at k1 k2 g2 ht
          subst k1; subst k2
          have good1 := clear_pair_at _ pre.length hlen
          have take1 := (clear_pair_take (to_array (pre ++ ['<'] :: f :: rest)) pre.length
            pre.length (le_refl _)).trans hP
          cases fo with
          | none =>
            rw [ht]
            exact argv_of_intact pre _ take1 good1
          | some g =>
            have hoi : ((pre.length : Nat) : Int) ≤ oi := by
              rcases g2 with g2 | g2
              · simp at g2
              · push_cast at g2; omega
            rw [ht]
            exact argv_of_intact pre _ ((clear_pair_take _ oi pre.length hoi).trans take1)
              (clear_pair_above _ oi pre.length hoi good1)
        · subst e
          have hnot : ['>'] ∉ f :: rest := by
            intro hm
            have : 2 ≤ (pre ++ ['>'] :: f :: rest).count ['>'] := by
              rw [List.count_append, List.count_cons_self]
              have := List.count_pos_iff.2 hm
              omega
            omega
          rw [hstep, scan_at_output, hslot] at ht
          obtain ⟨k1, k2⟩ := scan_keeps_output (f :: rest) hnot (pre.length + 1)
            ⟨-1, pre.length, none, some f⟩
          obtain ⟨g1, _⟩ := scan_index_ge (to_array (f :: rest)) (pre.length + 1)
            ⟨-1, pre.length, none, some f⟩
          generalize scan_redirection (to_array (f :: rest)) (pre.length + 1)
            ⟨-1, pre.length, none, some f⟩ = st at ht k1 k2 g1
          obtain ⟨ii, oi, fi, fo⟩ := st
          simp only at k1 k2 g1 ht
          subst k1; subst k2
          cases fi with
          | none =>
            rw [ht]
            exact argv_of_intact pre _
              ((clear_pair_take _ pre.length pre.length (le_refl _)).trans hP)
              (clear_pair_at _ pre.length hlen)
          | some g =>
            have hii : ((pre.length : Nat) : Int) ≤ ii := by
              rcases g1 with g1 | g1
              · simp at g1
              · push_cast at g1; omega
            rw [ht]
            refine argv_of_intact pre _
              ((clear_pair_take _ pre.length pre.length (le_refl _)).trans
                ((clear_pair_take _ ii pre.length hii).trans hP))
              (clear_pair_at _ pre.length ?_)
            rw [clear_pair_length]; exact hlen
  refine ⟨key, ?_, ?_⟩
  · rw [key]
    intro hm
    have := List.mem_takeWhile_imp hm
    simp at this
  · rw [key]
    intro hm
    have := List.mem_takeWhile_imp hm
    simp at this

/-- On `sort -r < in > out` the argument vector is `sort -r`. -/
theorem argv_after_redirection_witness :
    argv (clear_pair (clear_pair
        (to_array ["sort".toList, "-r".toList, "<".toList, "in".toList, ">".toList, "out".toList])
        2) 4) = ["sort".toList, "-r".toList] ∧
      ['<'] ∉ argv (clear_pair (clear_pair
        (to_array ["sort".toList, "-r".toList, "<".toList, "in".toList, ">".toList, "out".toList])
        2) 4) ∧
      ['>'] ∉ argv (clear_pair (clear_pair
        (to_array ["sort".toList, "-r".toList, "<".toList, "in".toList, ">".toList, "out".toList])
        2) 4) :=
  argv_after_redirection env_bin
    ["sort".toList, "-r".toList, "<".toList, "in".toList, ">".toList, "out".toList]
    ⟨clear_pair (clear_pair
        (to_array ["sort".toList, "-r".toList, "<".toList, "in".toList, ">".toList, "out".toList])
        2) 4, some "in".toList, some "out".toList⟩
    (by decide) (by decide) (by decide) (by decide)

theorem last_eq_append (toks : List CStr) (op : CStr) (h : toks.getLast? = some op) :
    toks = toks.dropLast ++ [op] := by
  rcases List.eq_nil_or_concat toks with e | ⟨l, x, e⟩
  · subst e; simp at h
  · subst e
    have h1 : x = op := by simpa using h
    subst h1
    simp

/-- What `check_redirection` does with a trailing operator, in general. For every token sequence
whose last token is `<` or `>`, it takes the sentinel as the operand of that operator: it opens
no file and redirects nothing for that direction, and whether it returns does not depend on
that direction (for a last `>`, the result is the same when every `open` for writing would
fail, and it returns when every `open` for reading succeeds; likewise for a last `<`). When no
other token is a redirection operator, it returns with the token array as it was, so the
operator stays in the argument vector. Nothing is reported for the missing operand. -/
theorem trailing_operator_ignored (env : ProcEnv) (toks : List CStr)
    (hlast : toks.getLast? = some ['<'] ∨ toks.getLast? = some ['>']) :
    (toks.getLast? = some ['>'] →
      check_redirection env (to_array toks) =
          check_redirection { env with open_out := fun _ => false } (to_array toks) ∧
        (∀ r, check_redirection env (to_array toks) = some r → r.stdout = none) ∧
        ((∀ f, env.open_in f = true) → (check_redirection env (to_array toks)).isSome = true)) ∧
    (toks.getLast? = some ['<'] →
      check_redirection env (to_array toks) =
          check_redirection { env with open_in := fun _ => false } (to_array toks) ∧
        (∀ r, check_redirection env (to_array toks) = some r → r.stdin = none) ∧
        ((∀ f, env.open_out f = true) → (check_redirection env (to_array toks)).isSome = true)) ∧
    ((∀ t ∈ toks.dropLast, t ≠ ['<'] ∧ t ≠ ['>']) →
      check_redirection env (to_array toks) = some ⟨to_array toks, none, none⟩ ∧
        argv (to_array toks) = toks) := by
  refine ⟨?_, ?_, ?_⟩
  · intro h
    have e := last_eq_append toks _ h
    have hs := scan_last_output toks.dropLast 0 ⟨-1, -1, none, none⟩
    rw [← e] at hs
    unfold check_redirection
    generalize scan_redirection (to_array toks) 0 ⟨-1, -1, none, none⟩ = st at hs
    obtain ⟨ii, oi, fi, fo⟩ := st
    simp only at hs
    subst hs
    cases fi with
    | none => simp
    | some f =>
      by_cases hi : env.open_in f = true
      · simp [hi]
      · simp only [hi]
        refine ⟨by simp, by simp, ?_⟩
        intro hall
        exact absurd (hall f) hi
  · intro h
    have e := last_eq_append toks _ h
    have hs := scan_last_input toks.dropLast 0 ⟨-1, -1, none, none⟩
    rw [← e] at hs
    unfold check_redirection
    generalize scan_redirection (to_array toks) 0 ⟨-1, -1, none, none⟩ = st at hs
    obtain ⟨ii, oi, fi, fo⟩ := st
    simp only at hs
    subst hs
    cases fo with
    | none => simp
    | some g =>
      by_cases ho : env.open_out g = true
      · simp [ho]
      · refine ⟨by simp [ho], by simp [ho], ?_⟩
        intro hall
        exact absurd (hall g) ho
  · intro hplain
    have hargv : argv (to_array toks) = toks :=
      argv_of_intact toks (to_array toks) (by simp [to_array]) (by simp [to_array])
    refine ⟨?_, hargv⟩
    have hs : scan_redirection (to_array toks) 0 ⟨-1, -1, none, none⟩ =
        ⟨(toks.dropLast.length : Int), -1, none, none⟩ ∨
        scan_redirection (to_array toks) 0 ⟨-1, -1, none, none⟩ =
        ⟨-1, (toks.dropLast.length : Int), none, none⟩ := by
      rcases hlast with h | h
      · left
        have e := last_eq_append toks _ h
        rw [e, to_array_append, scan_plain _ hplain]
        simp [to_array, scan_redirection, slot]
      · right
        have e := last_eq_append toks _ h
        rw [e, to_array_append, scan_plain _ hplain]
        simp [to_array, scan_redirection, slot]
    unfold check_redirection
    rcases hs with hs | hs <;> rw [hs]

/-- On `echo hi >` the token array comes back as it was. -/
theorem trailing_operator_ignored_example :
    check_redirection env_bin (to_array ["echo".toList, "hi".toList, ">".toList]) =
        some ⟨to_array ["echo".toList, "hi".toList, ">".toList], none, none⟩ ∧
      argv (to_array ["echo".toList, "hi".toList, ">".toList]) =
        ["echo".toList, "hi".toList, ">".toList] :=
  (trailing_operator_ignored env_bin ["echo".toList, "hi".toList, ">".toList]
    (Or.inr (by decide))).2.2 (by decide)

/-! ## Theorems: read_command -/

theorem scan_newline_eq (buf : List Char) (len : Nat) (hlen : len ≤ buf.length) :
    ∀ (fuel pos : Nat), len - pos ≤ fuel →
      scan_newline buf len fuel pos =
        (first_newline ((buf.drop pos).take (len - pos))).map (fun k => pos + k) := by
  intro fuel
  induction fuel with
  | zero =>
    intro pos h
    have : len - pos = 0 := by omega
    simp [scan_newline, this, first_newline]
  | succ n ih =>
    intro pos h
    by_cases hp : pos < len
    · have hb : pos < buf.length := by omega
      have e1 : buf.drop pos = buf[pos] :: buf.drop (pos + 1) := List.drop_eq_getElem_cons hb
      have e2 : len - pos = (len - (pos + 1)) + 1 := by omega
      have e3 : buf.getD pos '\x00' = buf[pos] := by
        simp [List.getD_eq_getElem?_getD, List.getElem?_eq_getElem hb]
      rw [e1, e2, List.take_succ_cons]
      simp only [scan_newline, hp, if_true, e3, first_newline]
      by_cases hc : buf[pos] = '\n'
      · simp [hc]
      · simp only [hc, if_false]
        rw [ih (pos + 1) (by omega)]
        simp only [Option.map_map]
        congr 1
        funext k
        simp only [Function.comp]
        omega
    · have : len - pos = 0 := by omega
      simp [scan_newline, hp, this, first_newline]

theorem first_newline_lt (w : List Char) : ∀ k, first_newline w = some k → k < w.length := by
  induction w with
  | nil => intro k h; simp [first_newline] at h
  | cons c cs ih =>
    intro k h
    by_cases hc : c = '\n'
    · simp [first_newline, hc] at h; subst h; simp
    · simp only [first_newline, hc, if_false, Option.map_eq_some'] at h
      obtain ⟨j, hj, e⟩ := h
      have := ih j hj
      simp; omega

theorem cut_line_found (w : List Char) : ∀ (k : Nat) (y : List Char), first_newline w = some k →
    cut_line (w ++ y) = (w.take k, some (w.drop (k + 1) ++ y)) := by
  induction w with
  | nil => intro k y h; simp [first_newline] at h
  | cons c cs ih =>
    intro k y h
    by_cases hc : c = '\n'
    · simp [first_newline, hc] at h; subst h; simp [cut_line, hc]
    · simp only [first_newline, hc, if_false, Option.map_eq_some'] at h
      obtain ⟨j, hj, e⟩ := h
      subst e
      simp [cut_line, hc, ih j y hj]

theorem cut_line_none (w : List Char) : ∀ (y : List Char), first_newline w = none →
    cut_line (w ++ y) = (w ++ (cut_line y).1, (cut_line y).2) := by
  induction w with
  | nil => intro y _; simp
  | cons c cs ih =>
    intro y h
    by_cases hc : c = '\n'
    · simp [first_newline, hc] at h
    · simp only [first_newline, hc, if_false, Option.map_eq_none'] at h
      simp [cut_line, hc, ih y h]

theorem input_lines_cut (s : List Char) :
    input_lines s =
      match cut_line s with
      | (a, some b) => a :: input_lines b
      | (a, none) => if a = [] then [] else [a] := by
  induction s with
  | nil => simp [input_lines, cut_line]
  | cons c cs ih =>
    by_cases hc : c = '\n'
    · simp [input_lines, cut_line, hc]
    · simp only [input_lines, cut_line, hc, if_false]
      rw [ih]
      rcases hcut : cut_line cs with ⟨a, _ | b⟩
      · by_cases ha : a = [] <;> simp [ha]
      · simp

theorem segment_append (buf : List Char) (a b c : Nat) (hab : a ≤ b) (hbc : b ≤ c) :
    (buf.drop a).take (b - a) ++ (buf.drop b).take (c - b) = (buf.drop a).take (c - a) := by
  have e1 : c - a = (b - a) + (c - b) := by omega
  have e2 : buf.drop b = (buf.drop a).drop (b - a) := by
    rw [List.drop_drop]; congr 1; omega
  rw [e1, e2, List.take_add]

/-- The scan of lines 164-175, and what follows it, on a state that satisfies the invariant. -/
theorem scan_phase_spec (n : Nat)
    (ih : ∀ s : ReadState, ReadInv s → s.L.pos = s.L.len → s.src.length + 1 ≤ n →
      ReadSpec (gathered s) (pending s.L s.src) s.L.fd (read_loop n s))
    (s : ReadState) (hinv : ReadInv s) (hfuel : s.src.length + 1 ≤ n) :
    ReadSpec (gathered s) (pending s.L s.src) s.L.fd
      (match scan_newline s.L.buf s.L.len (s.L.len - s.L.pos) s.L.pos with
        | some p =>
          (append_segment s.line (segment s.L s.segment_start p), { s.L with pos := p + 1 }, s.src)
        | none => read_loop n { s with L := { s.L with pos := s.L.len } }) := by
  obtain ⟨h1, h2, h3, h4, h5⟩ := hinv
  rw [scan_newline_eq s.L.buf s.L.len h3 _ _ (le_refl _)]
  cases hw : first_newline ((s.L.buf.drop s.L.pos).take (s.L.len - s.L.pos)) with
  | some k =>
    have hk := first_newline_lt _ k hw
    have hk2 : k < s.L.len - s.L.pos := by
      simp only [List.length_take] at hk
      omega
    simp only [Option.map_some']
    unfold ReadSpec pending
    simp only [segment]
    rw [cut_line_found _ k _ hw]
    simp only
    refine ⟨?_, ?_, ?_, ?_, ?_, ?_⟩
    rotate_left 2
    · trivial
    · show s.L.pos + k + 1 ≤ s.L.len
      omega
    · exact h3
    · exact h5
    · simp only [append_segment, gathered, segment, List.append_assoc]
      congr 2
      rw [List.take_take, Nat.min_eq_left (by omega)]
      have := segment_append s.L.buf s.segment_start s.L.pos (s.L.pos + k) h1 (by omega)
      rw [← this]
      congr 2
      omega
    · congr 1
      rw [List.drop_take, List.drop_drop]
      have e1 : s.L.len - (s.L.pos + k + 1) = s.L.len - s.L.pos - (k + 1) := by omega
      have e2 : s.L.pos + k + 1 = s.L.pos + (k + 1) := by omega
      rw [e1, e2]
  | none =>
    simp only [Option.map_none']
    have hs := ih { s with L := { s.L with pos := s.L.len } }
      ⟨by simp only; omega, le_refl _, h3, h4, h5⟩ rfl hfuel
    have hp : pending { s.L with pos := s.L.len } s.src = s.src.flatten := by
      simp [pending, segment]
    have hg : gathered { s with L := { s.L with pos := s.L.len } } =
        gathered s ++ (s.L.buf.drop s.L.pos).take (s.L.len - s.L.pos) := by
      simp only [gathered, segment, List.append_assoc]
      rw [segment_append s.L.buf s.segment_start s.L.pos s.L.len h1 h2]
    simp only at hs
    rw [hp, hg] at hs
    unfold ReadSpec at hs ⊢
    unfold pending
    simp only [segment]
    rw [cut_line_none _ _ hw]
    rcases hcut : cut_line s.src.flatten with ⟨a, _ | b⟩
    · rw [hcut] at hs
      simp only [List.append_assoc] at hs ⊢
      exact hs
    · rw [hcut] at hs
      simp only [List.append_assoc] at hs ⊢
      exact hs

theorem read_loop_spec : ∀ (fuel : Nat) (s : ReadState), ReadInv s →
    s.src.length + (if s.L.pos = s.L.len then 0 else 1) + 1 ≤ fuel →
    ReadSpec (gathered s) (pending s.L s.src) s.L.fd (read_loop fuel s) := by
  intro fuel
  induction fuel with
  | zero => intro s _ h; omega
  | succ n ih =>
    intro s hinv hfuel
    have ih2 : ∀ s : ReadState, ReadInv s → s.L.pos = s.L.len → s.src.length + 1 ≤ n →
        ReadSpec (gathered s) (pending s.L s.src) s.L.fd (read_loop n s) := by
      intro s' hi hp hf
      exact ih s' hi (by rw [if_pos hp]; omega)
    obtain ⟨h1, h2, h3, h4, h5⟩ := hinv
    rw [read_loop]
    by_cases hp : s.L.pos = s.L.len
    · have hseg : segment s.L s.L.pos s.L.len = [] := by simp [segment, hp]
      cases hsrc : s.src with
      | nil =>
        simp only [refill, hp, if_true, hsrc]
        unfold ReadSpec pending
        simp only [hseg, List.flatten_nil, List.append_nil, cut_line, gathered]
        refine ⟨?_, trivial⟩
        rw [← hp]
        by_cases hs : s.segment_start < s.L.pos
        · have hne : segment s.L s.segment_start s.L.pos ≠ [] := by
            intro e
            have := congrArg List.length e
            simp only [segment, List.length_take, List.length_drop, List.length_nil] at this
            omega
          simp [hs, append_segment, hne]
        · have he : segment s.L s.segment_start s.L.pos = [] := by
            have : s.L.pos - s.segment_start = 0 := by omega
            simp [segment, this]
          rw [if_neg hs, he, List.append_nil]
          cases hl : s.line with
          | none => simp
          | some l => simp [h4 l hl]
      | cons chunk rest =>
        have hc : 1 ≤ chunk.length := h5 chunk (by rw [hsrc]; exact List.mem_cons_self _ _)
        have hc2 : ¬ chunk.length < 1 := by omega
        simp only [refill, hp, if_true, hsrc, hc2, if_false]
        rw [if_pos hp, hsrc] at hfuel
        simp only [List.length_cons] at hfuel
        have hrest : ∀ c ∈ rest, 1 ≤ c.length := fun c hc' =>
          h5 c (by rw [hsrc]; exact List.mem_cons_of_mem _ hc')
        have hline : ∀ l, (if s.segment_start < s.L.len then
            append_segment s.line (segment s.L s.segment_start s.L.len) else s.line) = some l →
            l ≠ [] := by
          intro l hl
          by_cases hs : s.segment_start < s.L.len
          · rw [if_pos hs] at hl
            simp only [append_segment, Option.some.injEq] at hl
            rw [← hl]
            intro e
            have := congrArg List.length e
            simp only [segment, List.length_append, List.length_take, List.length_drop,
              List.length_nil] at this
            omega
          · rw [if_neg hs] at hl
            exact h4 l hl
        have key := scan_phase_spec n ih2
          ⟨{ s.L with len := chunk.length, buf := chunk ++ s.L.buf.drop chunk.length, pos := 0 },
            rest,
            (if s.segment_start < s.L.len then
              append_segment s.line (segment s.L s.segment_start s.L.len) else s.line), 0⟩
          ⟨le_refl _, Nat.zero_le _, by simp, hline, hrest⟩ (by simp only; omega)
        have hg : gathered
            ⟨{ s.L with len := chunk.length, buf := chunk ++ s.L.buf.drop chunk.length, pos := 0 },
              rest,
              (if s.segment_start < s.L.len then
                append_segment s.line (segment s.L s.segment_start s.L.len) else s.line), 0⟩ =
            gathered s := by
          simp only [gathered, segment, List.drop_zero, Nat.sub_zero, List.take_zero,
            List.append_nil]
          rw [← hp]
          by_cases hs : s.segment_start < s.L.pos
          · simp [hs, append_segment, segment]
          · have : s.L.pos - s.segment_start = 0 := by omega
            simp [hs, this]
        have hpend : pending
            { s.L with len := chunk.length, buf := chunk ++ s.L.buf.drop chunk.length, pos := 0 }
            rest = pending s.L (chunk :: rest) := by
          simp only [pending, segment, List.drop_zero, Nat.sub_zero, List.flatten_cons]
          have e0 : s.L.len - s.L.pos = 0 := by omega
          rw [e0, List.take_zero, List.nil_append, List.take_append_of_le_length (le_refl _),
            List.take_length]
        rw [hg, hpend] at key
        exact key
    · have hr : refill s = Sum.inr s := by simp [refill, hp]
      rw [hr]
      simp only
      rw [if_neg hp] at hfuel
      exact scan_phase_spec n ih2 s ⟨h1, h2, h3, h4, h5⟩ (by omega)

theorem cut_line_subset (p : List Char) :
    (∀ x ∈ (cut_line p).1, x ∈ p) ∧ (∀ b, (cut_line p).2 = some b → ∀ x ∈ b, x ∈ p) := by
  induction p with
  | nil => simp [cut_line]
  | cons c cs ih =>
    by_cases hc : c = '\n'
    · simp only [cut_line, hc, if_true]
      refine ⟨by simp, ?_⟩
      intro b hb x hx
      simp only [Option.some.injEq] at hb
      subst hb
      exact List.mem_cons_of_mem _ hx
    · simp only [cut_line, hc, if_false]
      refine ⟨?_, ?_⟩
      · intro x hx
        rcases List.mem_cons.1 hx with e | e
        · rw [e]; exact List.mem_cons_self _ _
        · exact List.mem_cons_of_mem _ (ih.1 x e)
      · intro b hb x hx
        exact List.mem_cons_of_mem _ (ih.2 b hb x hx)

theorem c_str_of_nul_free (a : List Char) (h : '\x00' ∉ a) : c_str a = a := by
  unfold c_str
  rw [List.takeWhile_eq_self_iff]
  intro x hx
  have : x ≠ '\x00' := fun e => h (e ▸ hx)
  simpa using this

theorem read_commands_closed (n : Nat) : ∀ (L : lines_t) (src : Source), L.fd < 0 →
    read_commands n L src = List.replicate n none := by
  induction n with
  | zero => intro L src _; rfl
  | succ n ih =>
    intro L src h
    have e : read_command L src = (none, L, src) := by simp [read_command, h]
    simp only [read_commands, e, List.replicate_succ]
    rw [ih L src h]

theorem take_append_replicate {α : Type} (xs : List α) (a : α) (n : Nat) :
    (xs ++ List.replicate (n + 1) a).take n = (xs ++ List.replicate n a).take n := by
  apply List.ext_getElem?
  intro i
  simp only [List.getElem?_take]
  split
  · rename_i hi
    by_cases hx : i < xs.length
    · rw [List.getElem?_append_left hx, List.getElem?_append_left hx]
    · rw [List.getElem?_append_right (by omega), List.getElem?_append_right (by omega)]
      rw [List.getElem?_replicate, List.getElem?_replicate]
      have h1 : i - xs.length < n + 1 := by omega
      have h2 : i - xs.length < n := by omega
      simp [h1, h2]
  · rfl

/-- One call of `read_command` on an open descriptor. -/
theorem read_command_spec (L : lines_t) (src : Source) (hfd : 0 ≤ L.fd) (h2 : L.pos ≤ L.len)
    (h3 : L.len ≤ L.buf.length) (h5 : ∀ c ∈ src, 1 ≤ c.length) (hnul : '\x00' ∉ pending L src) :
    match cut_line (pending L src) with
    | (a, none) =>
      (read_command L src).1 = (if a = [] then none else some a) ∧ (read_command L src).2.1.fd < 0
    | (a, some b) =>
      (read_command L src).1 = some a ∧
        pending (read_command L src).2.1 (read_command L src).2.2 = b ∧
        0 ≤ (read_command L src).2.1.fd ∧
        (read_command L src).2.1.pos ≤ (read_command L src).2.1.len ∧
        (read_command L src).2.1.len ≤ (read_command L src).2.1.buf.length ∧
        ∀ c ∈ (read_command L src).2.2, 1 ≤ c.length := by
  have hfd2 : ¬ L.fd < 0 := by omega
  have key := read_loop_spec (src.length + 2) ⟨L, src, none, L.pos⟩
    ⟨le_refl _, h2, h3, by simp, h5⟩ (by simp only; split <;> omega)
  have hg : gathered ⟨L, src, none, L.pos⟩ = [] := by simp [gathered, segment]
  rw [hg] at key
  unfold ReadSpec at key
  simp only [read_command, hfd2, if_false]
  have hsub := cut_line_subset (pending L src)
  rcases hcut : cut_line (pending L src) with ⟨a, _ | b⟩
  · rw [hcut] at key hsub
    simp only [List.nil_append] at key ⊢
    have ha : '\x00' ∉ a := fun hx => hnul (hsub.1 _ hx)
    refine ⟨?_, ?_⟩
    · rw [key.1]
      by_cases e : a = []
      · simp [e]
      · simp [e, c_str_of_nul_free a ha]
    · rw [key.2]; decide
  · rw [hcut] at key hsub
    simp only [List.nil_append] at key ⊢
    have ha : '\x00' ∉ a := fun hx => hnul (hsub.1 _ hx)
    obtain ⟨k1, k2, k3, k4, k5, k6⟩ := key
    refine ⟨?_, k2, ?_, k4, k5, k6⟩
    · rw [k1]; simp [c_str_of_nul_free a ha]
    · rw [k3]; exact hfd

theorem read_commands_spec (n : Nat) : ∀ (L : lines_t) (src : Source), 0 ≤ L.fd →
    L.pos ≤ L.len → L.len ≤ L.buf.length → (∀ c ∈ src, 1 ≤ c.length) →
    '\x00' ∉ pending L src →
    read_commands n L src =
      ((input_lines (pending L src)).map some ++ List.replicate n none).take n := by
  induction n with
  | zero => intro L src _ _ _ _ _; simp [read_commands]
  | succ n ih =>
    intro L src hfd h2 h3 h5 hnul
    have key := read_command_spec L src hfd h2 h3 h5 hnul
    have hsub := cut_line_subset (pending L src)
    rw [input_lines_cut]
    simp only [read_commands]
    rcases hcut : cut_line (pending L src) with ⟨a, _ | b⟩
    · rw [hcut] at key
      simp only at key ⊢
      rw [key.1, read_commands_closed n _ _ key.2]
      have hrep : List.take n (none :: List.replicate n (none : Option CStr)) =
          List.replicate n none := by
        rw [← List.replicate_succ, List.take_replicate]; simp
      by_cases e : a = []
      · simp [e, List.replicate_succ, hrep]
      · simp [e, List.replicate_succ, hrep]
    · rw [hcut] at key hsub
      simp only at key ⊢
      obtain ⟨k1, k2, k3, k4, k5, k6⟩ := key
      have hb : '\x00' ∉ b := fun hx => hnul (hsub.2 b rfl _ hx)
      rw [k1, ih _ _ k3 k4 k5 k6 (by rw [k2]; exact hb), k2]
      simp only [List.map_cons, List.cons_append, List.take_succ_cons]
      rw [take_append_replicate]

/-- C10. For every NUL-free input delivered in chunks of 1 to `BUFLENGTH` = 16 bytes until end
of input, successive `read_command` calls on a struct set up by `fdinit` with a valid descriptor
return, in order, the segments of the input between consecutive newline terminators (terminator
excluded, empty segments included), then the bytes after the last terminator if and only if
there are any, and `NULL` on every later call: for every `n`, the results of the first `n`
calls are the first `n` entries of that sequence. -/
theorem read_command_lines (L0 : lines_t) (fd : Int) (hfd : 0 ≤ fd) (chunks : Source)
    (hsize : ∀ c ∈ chunks, 1 ≤ c.length ∧ c.length ≤ BUFLENGTH)
    (hnul : ∀ c ∈ chunks, '\x00' ∉ c) (n : Nat) :
    read_commands n (fdinit L0 fd) chunks =
      ((input_lines chunks.flatten).map some ++ List.replicate n none).take n := by
  have hp : pending (fdinit L0 fd) chunks = chunks.flatten := by
    simp [pending, segment, fdinit]
  have h := read_commands_spec n (fdinit L0 fd) chunks hfd (le_refl _) (by simp [fdinit])
    (fun c hc => (hsize c hc).1)
    (by
      rw [hp]
      intro hx
      obtain ⟨c, hc, hxc⟩ := List.mem_flatten.1 hx
      exact hnul c hc hxc)
  rw [hp] at h
  exact h

/-- An input of two chunks, `ls -l`, newline, `pw` and `d`, two newlines, `echo`: five calls
return `ls -l`, `pwd`, the empty line, `echo` and `NULL`. -/
theorem read_command_lines_witness :
    read_commands 5 (fdinit ⟨0, 7, 9, "0123456789abcdef".toList⟩ 3)
        ["ls -l\npw".toList, "d\n\necho".toList] =
      ((input_lines ["ls -l\npw".toList, "d\n\necho".toList].flatten).map some ++
        List.replicate 5 none).take 5 ∧
      ((input_lines ["ls -l\npw".toList, "d\n\necho".toList].flatten).map some ++
        List.replicate 5 none).take 5 =
        [some "ls -l".toList, some "pwd".toList, some [], some "echo".toList, none] :=
  ⟨read_command_lines ⟨0, 7, 9, "0123456789abcdef".toList⟩ 3 (by decide)
    ["ls -l\npw".toList, "d\n\necho".toList] (by decide) (by decide) 5, by decide⟩

/-- The lines of `ls -l`, newline, `pwd`, two newlines, `echo`: four lines, the third one empty;
a text that ends in a newline has no further line after it. -/
theorem input_lines_example :
    input_lines "ls -l\npwd\n\necho".toList =
        ["ls -l".toList, "pwd".toList, [], "echo".toList] ∧
      input_lines "pwd\n".toList = ["pwd".toList] ∧ input_lines [] = [] := by
  decide

/-! ## Theorems: execute_full -/

theorem check_pipe_plain (pre : List CStr) (hpre : ∀ t ∈ pre, t ≠ ['|']) (l : TokenArray) :
    check_pipe (pre.map some ++ l) = check_pipe l ∧
      find_pipe_index (pre.map some ++ l) = pre.length + find_pipe_index l := by
  induction pre with
  | nil => simp
  | cons t pre ih =>
    have ht := hpre t (List.mem_cons_self _ _)
    obtain ⟨i1, i2⟩ := ih (fun x hx => hpre x (List.mem_cons_of_mem _ hx))
    have e : (t :: pre).map some ++ l = some t :: (pre.map some ++ l) := by simp
    rw [e]
    simp only [check_pipe, find_pipe_index, ht, if_false, i1, i2, List.length_cons]
    exact ⟨trivial, by omega⟩

theorem check_pipe_none (toks : List CStr) (h : ['|'] ∉ toks) :
    check_pipe (to_array toks) = 0 := by
  have := (check_pipe_plain toks (fun t ht e => h (e ▸ ht)) [none]).1
  unfold to_array
  rw [this]
  rfl

/-- A token sequence that holds `|`, cut at the first one. -/
theorem split_at_pipe (toks : List CStr) (h : ['|'] ∈ toks) :
    toks = toks.takeWhile (fun t => t != ['|']) ++
      ['|'] :: (toks.dropWhile (fun t => t != ['|'])).drop 1 := by
  have hsplit := List.takeWhile_append_dropWhile (fun t => t != ['|']) toks
  cases hd : toks.dropWhile (fun t => t != ['|']) with
  | nil =>
    rw [hd, List.append_nil] at hsplit
    have : ∀ x ∈ toks, (x != ['|']) = true := List.takeWhile_eq_self_iff.1 hsplit
    have := this _ h
    simp at this
  | cons o rest =>
    have ho := List.head_dropWhile_not (fun t => t != ['|']) toks (by rw [hd]; simp)
    simp only [hd, List.head_cons] at ho
    have ho2 : o = ['|'] := by simpa using ho
    rw [hd, ho2] at hsplit
    rw [List.drop_succ_cons, List.drop_zero]
    exact hsplit.symm

/-- C11. For every token sequence that contains `|` (with `pipe` and both `fork` calls
succeeding), `execute_full` splits at the first `|`: child 1 runs `execute_command` on an array
whose tokens up to the sentinel are exactly the tokens before that `|`, child 2 on the array of
exactly all tokens after it, a later `|` included as a token; the first part, `|` and the second
part make up the sequence. For a sequence without `|`, `execute_command` runs once, in the
calling process, on the whole array. -/
theorem execute_full_split (env : ProcEnv) (penv : PipeEnv) (currstatus : Int) :
    (∀ toks : List CStr, ['|'] ∈ toks →
      penv.pipe_ok = true → penv.fork1_ok = true → penv.fork2_ok = true →
      ∃ c1 c2 : Stage,
        execute_full env penv currstatus (to_array toks) = FullOutcome.pipeline c1 c2 ∧
        c1.outcome = execute_command env currstatus c1.tokens ∧
        c2.outcome = execute_command env currstatus c2.tokens ∧
        argv c1.tokens = toks.takeWhile (fun t => t != ['|']) ∧
        c2.tokens = to_array ((toks.dropWhile (fun t => t != ['|'])).drop 1) ∧
        argv c1.tokens ++ ['|'] :: argv c2.tokens = toks) ∧
    (∀ toks : List CStr, ['|'] ∉ toks →
      execute_full env penv currstatus (to_array toks) =
        FullOutcome.direct (execute_command env currstatus (to_array toks))) := by
  constructor
  · intro toks hmem hp hf1 hf2
    have hsplit := split_at_pipe toks hmem
    generalize hpre : toks.takeWhile (fun t => t != ['|']) = pre at hsplit
    generalize hpost : (toks.dropWhile (fun t => t != ['|'])).drop 1 = post at hsplit
    have hplain : ∀ t ∈ pre, t ≠ ['|'] := by
      intro t ht
      rw [← hpre] at ht
      have := List.mem_takeWhile_imp ht
      simpa using this
    have harr : to_array toks = pre.map some ++ some ['|'] :: to_array post := by
      rw [hsplit]; simp [to_array]
    have hcp : check_pipe (to_array toks) = 1 := by
      rw [harr, (check_pipe_plain pre hplain _).1]
      simp [check_pipe]
    have hidx : find_pipe_index (to_array toks) = pre.length := by
      rw [harr, (check_pipe_plain pre hplain _).2]
      simp [find_pipe_index]
    have hset : (to_array toks).set pre.length none = pre.map some ++ none :: to_array post := by
      rw [harr]
      have : pre.length = (pre.map some).length := by simp
      rw [this, List.set_append_right _ _ (le_refl _)]
      simp
    have hdrop : (to_array toks).drop (pre.length + 1) = to_array post := by
      rw [harr]
      have : pre.length + 1 = (pre.map some ++ [some ['|']]).length := by simp
      rw [this]
      have e : pre.map some ++ some ['|'] :: to_array post =
          (pre.map some ++ [some ['|']]) ++ to_array post := by simp
      rw [e, List.drop_left]
    have hargv1 : argv (pre.map some ++ none :: to_array post) = pre :=
      argv_of_intact pre _ (by simp)
        (by rw [List.getElem?_append_right (by simp)]; simp)
    have hargv2 : argv (to_array post) = post :=
      argv_of_intact post _ (by simp [to_array]) (by simp [to_array])
    refine ⟨⟨(to_array toks).set pre.length none,
        execute_command env currstatus ((to_array toks).set pre.length none)⟩,
      ⟨(to_array toks).drop (pre.length + 1),
        execute_command env currstatus ((to_array toks).drop (pre.length + 1))⟩,
      ?_, rfl, rfl, ?_, ?_, ?_⟩
    · simp [execute_full, hcp, hidx, hp, hf1, hf2]
    · simp only [hset, hargv1]
    · simp only [hdrop]
    · simp only [hset, hdrop, hargv1, hargv2]
      exact hsplit.symm
  · intro toks h
    simp [execute_full, check_pipe_none toks h]

/-- On `ls | sort | wc`, child 1 gets `ls` and child 2 gets `sort | wc`. -/
theorem execute_full_split_witness :
    ∃ c1 c2 : Stage,
      execute_full env_bin ⟨true, true, true⟩ 1
          (to_array ["ls".toList, "|".toList, "sort".toList, "|".toList, "wc".toList]) =
        FullOutcome.pipeline c1 c2 ∧
      c1.outcome = execute_command env_bin 1 c1.tokens ∧
      c2.outcome = execute_command env_bin 1 c2.tokens ∧
      argv c1.tokens = ["ls".toList] ∧
      c2.tokens = to_array ["sort".toList, "|".toList, "wc".toList] ∧
      argv c1.tokens ++ ['|'] :: argv c2.tokens =
        ["ls".toList, "|".toList, "sort".toList, "|".toList, "wc".toList] :=
  (execute_full_split env_bin ⟨true, true, true⟩ 1).1
    ["ls".toList, "|".toList, "sort".toList, "|".toList, "wc".toList]
    (by decide) rfl rfl rfl

/-! ## Theorems: the descriptors of the calling process around execute_command -/

/-- C12 (the code at the failing input). With `currstatus = 0`, `execute_command` on
`then echo hi` returns to its caller at line 250, after the two `dup` calls of lines 245-246
and without the `dup2` and `close` calls of lines 313-316: the interpreter that had the
descriptors 0, 1, 2 open now has 3 and 4 open as well. The same happens at line 255 for
`else echo hi` with `currstatus = 1`. When the command is executed (`then echo hi` with
`currstatus = 1`), the table afterwards is the table before. -/
theorem gate_skip_leaks_descriptors :
    (execute_command env_bin 0
        (to_array ["then".toList, "echo".toList, "hi".toList])).ending = Ending.returned ∧
      fds_after std_table (execute_command env_bin 0
        (to_array ["then".toList, "echo".toList, "hi".toList])) =
        std_table ++ [(3, "tty".toList), (4, "tty".toList)] ∧
      (execute_command env_bin 1
        (to_array ["else".toList, "echo".toList, "hi".toList])).ending = Ending.returned ∧
      fds_after std_table (execute_command env_bin 1
        (to_array ["else".toList, "echo".toList, "hi".toList])) =
        std_table ++ [(3, "tty".toList), (4, "tty".toList)] ∧
      fds_after std_table (execute_command env_bin 1
        (to_array ["then".toList, "echo".toList, "hi".toList])) = std_table := by
  decide

/-! ### The descriptor table, descriptor by descriptor -/

theorem fd_lookup_bind (t : FdTable) (n : Nat) (f : CStr) (m : Nat) :
    fd_lookup (fd_bind t n f) m = if m = n then some f else fd_lookup t m := by
  induction t with
  | nil =>
    by_cases h : m = n
    · simp [fd_bind, fd_lookup, h]
    · have h2 : ¬ n = m := fun e => h e.symm
      simp [fd_bind, fd_lookup, h, h2]
  | cons p rest ih =>
    obtain ⟨k, v⟩ := p
    simp only [fd_bind]
    by_cases h1 : n < k
    · rw [if_pos h1]
      by_cases h : m = n
      · simp [fd_lookup, h]
      · have h2 : ¬ n = m := fun e => h e.symm
        simp [fd_lookup, h, h2]
    · rw [if_neg h1]
      by_cases h3 : n = k
      · rw [if_pos h3]
        by_cases h : m = n
        · simp [fd_lookup, h]
        · have h2 : ¬ n = m := fun e => h e.symm
          have h4 : ¬ k = m := fun e => h (by omega)
          simp [fd_lookup, h, h2, h4]
      · rw [if_neg h3]
        by_cases h4 : k = m
        · have h5 : ¬ m = n := fun e => h3 (by omega)
          simp [fd_lookup, h4, h5]
        · simp only [fd_lookup, h4, if_false]
          exact ih

theorem fd_lookup_unbind (t : FdTable) (n m : Nat) :
    fd_lookup (fd_unbind t n) m = if m = n then none else fd_lookup t m := by
  induction t with
  | nil => simp [fd_unbind, fd_lookup]
  | cons p rest ih =>
    obtain ⟨k, v⟩ := p
    unfold fd_unbind at ih ⊢
    by_cases hk : k = n
    · have : ((k, v).1 != n) = false := by simp [hk]
      rw [List.filter_cons_of_neg (by simp [hk])]
      rw [ih]
      by_cases h : m = n
      · simp [h]
      · have : ¬ k = m := fun e => h (by omega)
        simp [fd_lookup, h, this]
    · rw [List.filter_cons_of_pos (by simpa using hk)]
      by_cases h4 : k = m
      · have : ¬ m = n := fun e => hk (by omega)
        simp [fd_lookup, h4, this]
      · simp only [fd_lookup, h4, if_false]
        exact ih

theorem fd_lookup_above (t : FdTable) : ∀ n, max_fd t < n → fd_lookup t n = none := by
  induction t with
  | nil => intro n _; rfl
  | cons p rest ih =>
    obtain ⟨k, v⟩ := p
    intro n h
    simp only [max_fd, List.foldr_cons] at h
    have h1 : k < n := by omega
    have h2 : max_fd rest < n := by unfold max_fd; omega
    have h3 : ¬ k = n := by omega
    simp only [fd_lookup, h3, if_false]
    exact ih n h2

theorem fd_lookup_lowest_free (t : FdTable) : fd_lookup t (lowest_free t) = none := by
  unfold lowest_free
  cases h : (List.range (max_fd t + 2)).find? (fun n => (fd_lookup t n).isNone) with
  | none => exact fd_lookup_above t _ (by simp)
  | some n =>
    have := List.find?_some h
    simpa using this

theorem sys_dup_open (t : FdTable) (fd : Nat) (f : CStr) (h : fd_lookup t fd = some f) :
    sys_dup t fd = (fd_bind t (lowest_free t) f, (lowest_free t : Int)) := by
  simp [sys_dup, h]

theorem sys_dup2_open (t : FdTable) (a : Nat) (target : Nat) (f : CStr)
    (h : fd_lookup t a = some f) : sys_dup2 t (a : Int) target = fd_bind t target f := by
  have : ¬ ((a : Int) < 0) := by omega
  simp [sys_dup2, this, h]

theorem sys_close_nat (t : FdTable) (a : Nat) : sys_close t (a : Int) = fd_unbind t a := by
  have : ¬ ((a : Int) < 0) := by omega
  simp [sys_close, this]

theorem fd_lookup_redirect (t : FdTable) (file : CStr) (target m : Nat)
    (ht : (fd_lookup t target).isSome = true) :
    fd_lookup (sys_redirect t file target) m =
      if m = lowest_free t then none else if m = target then some file else fd_lookup t m := by
  have hfree := fd_lookup_lowest_free t
  have hne : target ≠ lowest_free t := by
    intro e
    rw [e, hfree] at ht
    simp at ht
  unfold sys_redirect
  rw [sys_dup2_open _ _ _ file (by rw [fd_lookup_bind]; simp), sys_close_nat,
    fd_lookup_unbind, fd_lookup_bind, fd_lookup_bind]
  by_cases h1 : m = lowest_free t
  · simp [h1]
  · simp [h1]

/-- The saving of the standard streams establishes the invariant. -/
theorem fd_inv_save (t : FdTable) (f0 f1 : CStr) (h0 : fd_lookup t 0 = some f0)
    (h1 : fd_lookup t 1 = some f1) :
    ∃ a b : Nat, a ≠ b ∧ a ≠ 0 ∧ a ≠ 1 ∧ b ≠ 0 ∧ b ≠ 1 ∧ fd_lookup t a = none ∧
      fd_lookup t b = none ∧ FdInv t a b (fd_event ⟨t, -1, -1⟩ Event.save_std) := by
  have ha := fd_lookup_lowest_free t
  have hb := fd_lookup_lowest_free (fd_bind t (lowest_free t) f1)
  have hstate : fd_event ⟨t, -1, -1⟩ Event.save_std =
      ⟨fd_bind (fd_bind t (lowest_free t) f1) (lowest_free (fd_bind t (lowest_free t) f1)) f0,
        (lowest_free t : Int), (lowest_free (fd_bind t (lowest_free t) f1) : Int)⟩ := by
    have h0' : fd_lookup (fd_bind t (lowest_free t) f1) 0 = some f0 := by
      rw [fd_lookup_bind]
      have : (0 : Nat) ≠ lowest_free t := fun e => by rw [← e, h0] at ha; simp at ha
      simp [this, h0]
    simp only [fd_event]
    rw [sys_dup_open t 1 f1 h1]
    simp only
    rw [sys_dup_open _ 0 f0 h0']
  generalize lowest_free t = a at ha hb hstate
  have ha0 : a ≠ 0 := fun e => by rw [e, h0] at ha; simp at ha
  have ha1 : a ≠ 1 := fun e => by rw [e, h1] at ha; simp at ha
  generalize lowest_free (fd_bind t a f1) = b at hb hstate
  rw [fd_lookup_bind] at hb
  have hba : b ≠ a := fun e => by simp [e] at hb
  simp only [hba, if_false] at hb
  have hb0 : b ≠ 0 := fun e => by rw [e, h0] at hb; simp at hb
  have hb1 : b ≠ 1 := fun e => by rw [e, h1] at hb; simp at hb
  refine ⟨a, b, Ne.symm hba, ha0, ha1, hb0, hb1, ha, hb, ?_⟩
  rw [hstate]
  refine ⟨rfl, rfl, ?_, ?_, ?_, ?_, ?_⟩
  · simp only [fd_lookup_bind]
    simp [Ne.symm hba, h1]
  · simp only [fd_lookup_bind]
    simp [h0]
  · simp only [fd_lookup_bind]
    simp [Ne.symm hb0, Ne.symm ha0, h0]
  · simp only [fd_lookup_bind]
    simp [Ne.symm hb1, Ne.symm ha1, h1]
  · intro m _ _ hma hmb
    simp only [fd_lookup_bind]
    simp [hma, hmb]

/-- An event between the saving and the restoring keeps the invariant. -/
theorem fd_inv_inner (t : FdTable) (a b : Nat) (ha0 : a ≠ 0) (ha1 : a ≠ 1) (hb0 : b ≠ 0)
    (hb1 : b ≠ 1) (f0 f1 : CStr) (h0 : fd_lookup t 0 = some f0) (h1 : fd_lookup t 1 = some f1)
    (s : FdState) (hs : FdInv t a b s) (e : Event) (he : e.inner) : FdInv t a b (fd_event s e) := by
  obtain ⟨i1, i2, i3, i4, i5, i6, i7⟩ := hs
  have hfree := fd_lookup_lowest_free s.table
  have hn0 : lowest_free s.table ≠ 0 := fun e => by rw [e] at hfree; rw [hfree] at i5; simp at i5
  have hn1 : lowest_free s.table ≠ 1 := fun e => by rw [e] at hfree; rw [hfree] at i6; simp at i6
  have hna : lowest_free s.table ≠ a := fun e => by
    rw [e, i3, h1] at hfree; simp at hfree
  have hnb : lowest_free s.table ≠ b := fun e => by
    rw [e, i4, h0] at hfree; simp at hfree
  have hnt : fd_lookup t (lowest_free s.table) = none := by
    rw [← i7 _ hn0 hn1 hna hnb]; exact hfree
  cases e with
  | save_std => exact absurd rfl he.1
  | restore_std => exact absurd rfl he.2
  | redirect_stdin file =>
    refine ⟨i1, i2, ?_, ?_, ?_, ?_, ?_⟩
    · simp only [fd_event, fd_lookup_redirect _ _ _ _ i5]
      simp [Ne.symm hna, ha0, i3]
    · simp only [fd_event, fd_lookup_redirect _ _ _ _ i5]
      simp [Ne.symm hnb, hb0, i4]
    · simp only [fd_event, fd_lookup_redirect _ _ _ _ i5]
      simp [Ne.symm hn0]
    · simp only [fd_event, fd_lookup_redirect _ _ _ _ i5]
      simp [Ne.symm hn1, i6]
    · intro m hm0 hm1 hma hmb
      simp only [fd_event, fd_lookup_redirect _ _ _ _ i5]
      by_cases hm : m = lowest_free s.table
      · simp [hm, hnt]
      · simp [hm, hm0, i7 m hm0 hm1 hma hmb]
  | redirect_stdout file =>
    refine ⟨i1, i2, ?_, ?_, ?_, ?_, ?_⟩
    · simp only [fd_event, fd_lookup_redirect _ _ _ _ i6]
      simp [Ne.symm hna, ha1, i3]
    · simp only [fd_event, fd_lookup_redirect _ _ _ _ i6]
      simp [Ne.symm hnb, hb1, i4]
    · simp only [fd_event, fd_lookup_redirect _ _ _ _ i6]
      simp [Ne.symm hn0, i5]
    · simp only [fd_event, fd_lookup_redirect _ _ _ _ i6]
      simp [Ne.symm hn1]
    · intro m hm0 hm1 hma hmb
      simp only [fd_event, fd_lookup_redirect _ _ _ _ i6]
      by_cases hm : m = lowest_free s.table
      · simp [hm, hnt]
      · simp [hm, hm1, i7 m hm0 hm1 hma hmb]
  | builtin name => exact ⟨i1, i2, i3, i4, i5, i6, i7⟩
  | spawn path tokens => exact ⟨i1, i2, i3, i4, i5, i6, i7⟩
  | fork_failed => exact ⟨i1, i2, i3, i4, i5, i6, i7⟩
  | not_found name => exact ⟨i1, i2, i3, i4, i5, i6, i7⟩

theorem fd_inv_fold (t : FdTable) (a b : Nat) (ha0 : a ≠ 0) (ha1 : a ≠ 1) (hb0 : b ≠ 0)
    (hb1 : b ≠ 1) (f0 f1 : CStr) (h0 : fd_lookup t 0 = some f0) (h1 : fd_lookup t 1 = some f1)
    (mid : List Event) : ∀ s : FdState, FdInv t a b s → (∀ e ∈ mid, e.inner) →
      FdInv t a b (mid.foldl fd_event s) := by
  induction mid with
  | nil => intro s hs _; exact hs
  | cons e mid ih =>
    intro s hs hm
    simp only [List.foldl_cons]
    exact ih _ (fd_inv_inner t a b ha0 ha1 hb0 hb1 f0 f1 h0 h1 s hs e (hm e (List.mem_cons_self _ _)))
      (fun x hx => hm x (List.mem_cons_of_mem _ hx))

/-- The restoring of the standard streams brings every descriptor back to what it was. -/
theorem fd_inv_restore (t : FdTable) (a b : Nat) (hab : a ≠ b) (ha0 : a ≠ 0) (ha1 : a ≠ 1)
    (hb0 : b ≠ 0) (hb1 : b ≠ 1) (hta : fd_lookup t a = none) (htb : fd_lookup t b = none)
    (f0 f1 : CStr) (h0 : fd_lookup t 0 = some f0) (h1 : fd_lookup t 1 = some f1)
    (s : FdState) (hs : FdInv t a b s) (m : Nat) :
    fd_lookup (fd_event s Event.restore_std).table m = fd_lookup t m := by
  obtain ⟨i1, i2, i3, i4, i5, i6, i7⟩ := hs
  rw [h1] at i3
  rw [h0] at i4
  have e1 : sys_dup2 s.table (a : Int) 1 = fd_bind s.table 1 f1 := sys_dup2_open _ _ _ _ i3
  have e2 : sys_dup2 (fd_bind s.table 1 f1) (b : Int) 0 = fd_bind (fd_bind s.table 1 f1) 0 f0 :=
    sys_dup2_open _ _ _ _ (by rw [fd_lookup_bind]; simp [hb1, i4])
  simp only [fd_event, i1, i2, e1, e2, sys_close_nat, fd_lookup_unbind, fd_lookup_bind]
  by_cases hmb : m = b
  · simp [hmb, htb]
  · by_cases hma : m = a
    · simp [hma, hab, hta]
    · by_cases hm0 : m = 0
      · simp [hm0, Ne.symm hb0, Ne.symm ha0, h0]
      · by_cases hm1 : m = 1
        · simp [hm1, Ne.symm hb1, Ne.symm ha1, h1]
        · simp [hmb, hma, hm0, hm1, i7 m hm0 hm1 hma hmb]

/-- A saving, events in between and a restoring leave every descriptor as it was. -/
theorem fds_after_restored (t : FdTable) (hopen0 : (fd_lookup t 0).isSome = true)
    (hopen1 : (fd_lookup t 1).isSome = true) (o : Outcome) (mid : List Event)
    (hev : o.events = Event.save_std :: mid ++ [Event.restore_std])
    (hmid : ∀ e ∈ mid, e.inner) (m : Nat) :
    fd_lookup (fds_after t o) m = fd_lookup t m := by
  obtain ⟨f0, h0⟩ := Option.isSome_iff_exists.1 hopen0
  obtain ⟨f1, h1⟩ := Option.isSome_iff_exists.1 hopen1
  obtain ⟨a, b, hab, ha0, ha1, hb0, hb1, hta, htb, hinv⟩ := fd_inv_save t f0 f1 h0 h1
  have hfold := fd_inv_fold t a b ha0 ha1 hb0 hb1 f0 f1 h0 h1 mid _ hinv hmid
  unfold fds_after
  rw [hev, List.cons_append, List.foldl_cons, List.foldl_append]
  simp only [List.foldl_cons, List.foldl_nil]
  exact fd_inv_restore t a b hab ha0 ha1 hb0 hb1 hta htb f0 f1 h0 h1 _ hfold m

/-! ### The events of execute_command on its returning paths -/

theorem fork_and_wait_inner (env : ProcEnv) (path : CStr) (tokens : TokenArray) :
    ∀ e ∈ (fork_and_wait env path tokens).2, e.inner := by
  intro e he
  unfold fork_and_wait at he
  by_cases hf : env.fork_ok = true
  · simp only [hf, if_true, List.mem_singleton] at he
    subst he
    exact ⟨by simp, by simp⟩
  · simp only [hf, List.mem_singleton] at he
    simp only [Bool.false_eq_true, if_false, List.mem_singleton] at he
    subst he
    exact ⟨by simp, by simp⟩

theorem search_stray_inner (env : ProcEnv) (name : CStr) (tokens : TokenArray)
    (slots : List StraySlot) :
    ∀ st ev, search_stray env name tokens slots = Search.ran st ev → ∀ e ∈ ev, e.inner := by
  induction slots with
  | nil => intro st ev h; simp [search_stray] at h
  | cons s slots ih =>
    intro st ev h
    cases s with
    | null => simp [search_stray] at h
    | wild => simp [search_stray] at h
    | text d =>
      simp only [search_stray] at h
      by_cases ha : env.access (d ++ '/' :: name) = true
      · rw [if_pos ha] at h
        simp only [Search.ran.injEq] at h
        have := fork_and_wait_inner env (d ++ '/' :: name) tokens
        rw [h.2] at this
        exact this
      · rw [if_neg ha] at h
        exact ih st ev h

theorem search_dirs_inner (env : ProcEnv) (name : CStr) (tokens : TokenArray) (dirs : List CStr) :
    ∀ st ev, search_dirs env name tokens dirs = Search.ran st ev → ∀ e ∈ ev, e.inner := by
  induction dirs with
  | nil =>
    intro st ev h
    simp only [search_dirs] at h
    exact search_stray_inner env name tokens _ st ev h
  | cons d ds ih =>
    intro st ev h
    simp only [search_dirs] at h
    by_cases ha : env.access (d ++ '/' :: name) = true
    · rw [if_pos ha] at h
      simp only [Search.ran.injEq] at h
      have := fork_and_wait_inner env (d ++ '/' :: name) tokens
      rw [h.2] at this
      exact this
    · rw [if_neg ha] at h
      exact ih st ev h

/-- Where `dispatch` returns, it has restored the standard streams last. -/
theorem dispatch_trace (env : ProcEnv) (currstatus : Int) (tokens : TokenArray)
    (h : (dispatch env currstatus [Event.save_std] tokens).ending = Ending.returned) :
    ∃ mid, (dispatch env currstatus [Event.save_std] tokens).events =
        Event.save_std :: mid ++ [Event.restore_std] ∧ ∀ e ∈ mid, e.inner := by
  unfold dispatch at h ⊢
  cases hs : slot tokens 0 with
  | none => simp [hs] at h
  | some name =>
    simp only [hs] at h ⊢
    by_cases hb : is_builtin name = true
    · simp only [hb, if_true] at h ⊢
      cases hr : check_redirection env tokens with
      | none => simp [hr] at h
      | some r =>
        simp only [hr] at h ⊢
        rcases hx : execute_builtin_command env currstatus r.tokens with ⟨st, e⟩
        rw [hx] at h
        cases e with
        | returned =>
          refine ⟨r.stdin.toList.map Event.redirect_stdin ++
            r.stdout.toList.map Event.redirect_stdout ++ [Event.builtin name], by simp, ?_⟩
          intro e he
          simp only [List.mem_append, List.mem_map, List.mem_singleton] at he
          rcases he with (⟨f, _, e1⟩ | ⟨f, _, e1⟩) | e1 <;> subst e1 <;>
            exact ⟨by simp, by simp⟩
        | process_exit code => simp at h
        | null_deref => simp at h
        | stray_read => simp at h
    · simp only [hb] at h ⊢
      simp only [Bool.false_eq_true, if_false] at h ⊢
      by_cases hsl : check_slash name = 0
      · simp only [hsl, if_true] at h ⊢
        cases hsd : search_dirs env name tokens DIR_PATHS with
        | exhausted =>
          refine ⟨[Event.not_found name], by simp, ?_⟩
          intro e he
          simp only [List.mem_singleton] at he
          subst he
          exact ⟨by simp, by simp⟩
        | ran st ev =>
          exact ⟨ev, by simp, search_dirs_inner env name tokens DIR_PATHS st ev hsd⟩
        | fault => simp [hsd] at h
      · simp only [hsl, if_false] at h ⊢
        exact ⟨(fork_and_wait env name tokens).2, by simp,
          fork_and_wait_inner env name tokens⟩

theorem gate_else_trace (env : ProcEnv) (currstatus : Int) (tokens : TokenArray)
    (h : (gate_else env currstatus [Event.save_std] tokens).ending = Ending.returned) :
    (gate_else env currstatus [Event.save_std] tokens).events = [Event.save_std] ∨
    ∃ mid, (gate_else env currstatus [Event.save_std] tokens).events =
        Event.save_std :: mid ++ [Event.restore_std] ∧ ∀ e ∈ mid, e.inner := by
  unfold gate_else at h ⊢
  cases hs : slot tokens 0 with
  | none => simp [hs] at h
  | some t =>
    simp only [hs] at h ⊢
    by_cases he : t = "else".toList
    · simp only [he, if_true] at h ⊢
      by_cases hc : currstatus ≠ 0
      · left; simp [hc]
      · simp only [hc, if_false] at h ⊢
        exact Or.inr (dispatch_trace env currstatus _ h)
    · simp only [he, if_false] at h ⊢
      exact Or.inr (dispatch_trace env currstatus _ h)

/-- A returning `execute_command` either took the early `return` of line 250 or 255, having only
saved the standard streams, or restored them last. -/
theorem execute_command_trace (env : ProcEnv) (currstatus : Int) (tokens : TokenArray)
    (h : (execute_command env currstatus tokens).ending = Ending.returned) :
    (execute_command env currstatus tokens).events = [Event.save_std] ∨
    ∃ mid, (execute_command env currstatus tokens).events =
        Event.save_std :: mid ++ [Event.restore_std] ∧ ∀ e ∈ mid, e.inner := by
  unfold execute_command at h ⊢
  cases hs : slot tokens 0 with
  | none => simp [hs] at h
  | some t =>
    simp only [hs] at h ⊢
    by_cases he : t = "then".toList
    · simp only [he, if_true] at h ⊢
      by_cases hc : currstatus ≠ 1
      · left; simp [hc]
      · simp only [hc, if_false] at h ⊢
        exact gate_else_trace env currstatus _ h
    · simp only [he, if_false] at h ⊢
      exact gate_else_trace env currstatus _ h

/-- On every path by which `execute_command` returns after the command got past its conditional
prefix (built-in, command not found, fork failure, external command finished), every descriptor
of the calling process is afterwards as it was before: open or not, and bound to the same file.
The interpreter is taken to have 0 and 1 open. -/
theorem executed_paths_restore (env : ProcEnv) (currstatus : Int) (tokens : TokenArray)
    (t : FdTable) (hopen0 : (fd_lookup t 0).isSome = true) (hopen1 : (fd_lookup t 1).isSome = true)
    (hret : (execute_command env currstatus tokens).ending = Ending.returned)
    (hexec : executed (execute_command env currstatus tokens) = true) (m : Nat) :
    fd_lookup (fds_after t (execute_command env currstatus tokens)) m = fd_lookup t m := by
  rcases execute_command_trace env currstatus tokens hret with h | ⟨mid, hev, hmid⟩
  · simp [executed, h, hret] at hexec
  · exact fds_after_restored t hopen0 hopen1 _ mid hev hmid m

/-- On every path by which `execute_command` returns without the command getting past its conditional
prefix, the two duplicates made at lines 245-246 stay open. -/
theorem skipped_paths_leak (env : ProcEnv) (currstatus : Int) (tokens : TokenArray)
    (t : FdTable) (f0 f1 : CStr) (h0 : fd_lookup t 0 = some f0) (h1 : fd_lookup t 1 = some f1)
    (hskip : executed (execute_command env currstatus tokens) = false) :
    ∃ a b : Nat, a ≠ b ∧ fd_lookup t a = none ∧ fd_lookup t b = none ∧
      fd_lookup (fds_after t (execute_command env currstatus tokens)) a = some f1 ∧
      fd_lookup (fds_after t (execute_command env currstatus tokens)) b = some f0 := by
  have hev : (execute_command env currstatus tokens).events = [Event.save_std] := by
    simp only [executed, Bool.or_eq_false_iff, bne_eq_false_iff_eq] at hskip
    exact hskip.1
  obtain ⟨a, b, hab, _, _, _, _, hta, htb, hinv⟩ := fd_inv_save t f0 f1 h0 h1
  obtain ⟨_, _, i3, i4, _⟩ := hinv
  refine ⟨a, b, hab, hta, htb, ?_, ?_⟩
  · unfold fds_after
    rw [hev]
    simp only [List.foldl_cons, List.foldl_nil]
    rw [i3, h1]
  · unfold fds_after
    rw [hev]
    simp only [List.foldl_cons, List.foldl_nil]
    rw [i4, h0]

/-! ## Theorems: the number of tokens stored by parse_command -/

theorem filterMap_all_some {α : Type} (f : α → Option α) (l : List α)
    (h : ∀ x ∈ l, f x = some x) : l.filterMap f = l := by
  induction l with
  | nil => rfl
  | cons a l ih =>
    rw [List.filterMap_cons, h a (List.mem_cons_self _ _)]
    simp only
    rw [ih (fun x hx => h x (List.mem_cons_of_mem _ hx))]

theorem wildcard_matches_big : wildcard_matches dir_big "*".toList = big_names := by
  have h1 : find_path "*".toList = (0, false) := by decide
  have h2 : find_wildcard ("*".toList.drop 0) = (0, true) := by decide
  unfold wildcard_matches
  simp only [h1, h2, if_true]
  have hd : dir_big.opendir ['.'] = some big_names := by simp [dir_big]
  simp only [Bool.false_eq_true, false_and, if_false, hd]
  apply filterMap_all_some
  intro name hname
  simp only [big_names, List.mem_map, List.mem_range] at hname
  obtain ⟨n, _, e⟩ := hname
  subst e
  simp [dir_big, cget, match_check]

theorem parse_token_matches (fs : FileSys) (acc : List CStr) (t : CStr)
    (h : 0 < (wildcard_matches fs t).length) :
    parse_token fs acc t = acc ++ wildcard_matches fs t := by
  unfold parse_token check_wildcard
  exact if_pos h

theorem big_names_length : big_names.length = 1000 := by
  simp [big_names]

/-- C13 (the code at the failing input). In a directory holding the thousand regular files
`f000` to `f999`, `parse_command` on the line `ls *` stores 1001 tokens, `ls` and the thousand
names: more than `MAX_TOKENS - 1`, and the sentinel is then written to slot 1001 of an array
that has the slots 0 to `MAX_TOKENS - 1`. -/
theorem wildcard_overflows_token_array :
    parse_command dir_big "ls *".toList = "ls".toList :: big_names ∧
      (parse_command dir_big "ls *".toList).length = 1001 ∧
      MAX_TOKENS - 1 < (parse_command dir_big "ls *".toList).length ∧
      MAX_TOKENS ≤ (parse_command dir_big "ls *".toList).length := by
  have hl : line_tokens "ls *".toList = ["ls".toList, "*".toList] := by decide
  have hp : parse_command dir_big "ls *".toList = "ls".toList :: big_names := by
    rw [parse_command_eq_store, hl]
    have h0 : ([] : List CStr).length < MAX_TOKENS - 1 := by decide
    have h1 : ["ls".toList].length < MAX_TOKENS - 1 := by decide
    have hpos : 0 < (wildcard_matches dir_big "*".toList).length := by
      rw [wildcard_matches_big, big_names_length]; decide
    simp only [store_tokens]
    rw [if_pos h0, parse_token_plain dir_big "ls".toList [] (by decide)]
    rw [List.nil_append, if_pos h1]
    rw [parse_token_matches dir_big _ _ hpos, wildcard_matches_big]
    simp only [List.cons_append, List.nil_append]
  rw [hp]
  simp [big_names_length, MAX_TOKENS]

/-- Where the cap does hold: when no token of the sequence has a match in the directory
listing, at most `MAX_TOKENS - 1` tokens are stored. -/
theorem store_tokens_capped (fs : FileSys) (ts : List CStr)
    (h : ∀ t ∈ ts, wildcard_matches fs t = []) : ∀ acc : List CStr,
    acc.length ≤ MAX_TOKENS - 1 → (store_tokens fs ts acc).length ≤ MAX_TOKENS - 1 := by
  induction ts with
  | nil => intro acc ha; exact ha
  | cons t ts ih =>
    intro acc ha
    simp only [store_tokens]
    by_cases hc : acc.length < MAX_TOKENS - 1
    · rw [if_pos hc]
      apply ih (fun x hx => h x (List.mem_cons_of_mem _ hx))
      have e : parse_token fs acc t = acc ++ [t] := by
        simp [parse_token, check_wildcard, h t (List.mem_cons_self _ _)]
      rw [e]
      simp only [List.length_append, List.length_singleton]
      omega
    · rw [if_neg hc]; exact ha

end MyShell
